import Mathlib

/-!
Verification of the `pa-jail` sandbox tool (`src/jail/pa-jail.cc`) against its
natural-language specification.  Byte strings are modelled as `List Nat`
(one `Nat` per byte); machine integers are `Nat`/`Int` with explicit overflow
where it matters.  Each definition is a shallow embedding of the C++ function
of the same name; deviations forced by C undefined behaviour (reads past a
string's NUL terminator) are modelled as reading byte `0` and are noted at the
definition.
-/

namespace PaJail

/-! ### Shell quoting (`shell_quote`, pa-jail.cc lines 158-184) -/

/-- `isalnum((unsigned char) c)` in the C locale: ASCII digits and letters. -/
def isalnumB (c : Nat) : Bool :=
  (48 ≤ c ∧ c ≤ 57) ∨ (65 ≤ c ∧ c ≤ 90) ∨ (97 ≤ c ∧ c ≤ 122)

/-- The characters `shell_quote` leaves unquoted: `isalnum(c) || c == '_' ||
c == '-' || c == '~' || c == '.' || c == '/'`. -/
def sqSafe (c : Nat) : Bool :=
  isalnumB c || c = 95 || c = 45 || c = 126 || c = 46 || c = 47

/-- `argument.substr(a, b - a)`: the elements of `s` at positions `[a, b)`. -/
def slice {α : Type} (s : List α) (a b : Nat) : List α :=
  (s.take b).drop a

/-- The `for (pos ...)` loop of `shell_quote`, carrying the loop state
`(quoted, last)`.  `rem` is the not-yet-scanned suffix of `s` (the loop scans
`s[pos]`), so the recursion is structural in `rem`.  Byte 39 is `'`, 92 is
`\`, 126 is `~`. -/
def sqLoop (s : List Nat) : List Nat → Nat → List Nat → Nat → List Nat × Nat
  | [], _, quoted, last => (quoted, last)
  | c :: rem, pos, quoted, last =>
    if (pos = 0 ∧ c = 126) ∨ ¬ sqSafe c then
      let q1 := if quoted = [] then [39] else quoted
      if c = 39 then
        sqLoop s rem (pos + 1) (q1 ++ slice s last pos ++ [39, 92, 39, 39]) (pos + 1)
      else
        sqLoop s rem (pos + 1) q1 last
    else
      sqLoop s rem (pos + 1) quoted last

/-- `shell_quote(argument)`: returns the argument unchanged unless some
position triggers quoting, in which case the single-quoted rendering
accumulated by the loop is completed with `argument.substr(last) + "'"`. -/
def shell_quote (s : List Nat) : List Nat :=
  let r := sqLoop s s 0 [] 0
  if r.1 = [] then s else r.1 ++ s.drop r.2 ++ [39]

/-- Replacement of every single-quote byte by `'\''` (bytes 39 92 39 39),
the closed form of what the `shell_quote` loop accumulates. -/
def sqEscape : List Nat → List Nat
  | [] => []
  | c :: t => if c = 39 then 39 :: 92 :: 39 :: 39 :: sqEscape t else c :: sqEscape t

/-- Whether some position of `s` triggers quoting:
`(pos == 0 && s[pos] == '~') || !safe(s[pos])`. -/
def sqNeeds (s : List Nat) : Bool :=
  (match s with | [] => false | c :: _ => c = 126) || s.any (fun c => ¬ sqSafe c)

/-! ### A POSIX shell word parser (external collaborator).

Modelled from the spec: the spec's round-trip property quantifies over "a
minimally-invoked shell" parsing the quoted string back into words; the shell
is not part of this repository, so its word parser is modelled here from the
POSIX shell grammar.  The model is deliberately partial: it returns `none`
whenever the input contains an unquoted construct whose expansion could alter
the word (metacharacters, expansions, a word-initial tilde, double quotes,
an unterminated quote), and otherwise returns the list of parsed words.
Handled constructs: blank-separated words, single quotes (every byte up to
the closing quote is literal), backslash escapes, and `\<newline>` line
continuation. -/

/-- Bytes a POSIX shell treats as literal in an unquoted word, restricted to
the alphabet `shell_quote` can leave unquoted. -/
def shLiteral (c : Nat) : Bool :=
  isalnumB c || c = 95 || c = 45 || c = 46 || c = 47 || c = 126

/-- Parser mode: outside any quotes, or inside single quotes. -/
inductive ShMode where
  | norm : ShMode
  | squote : ShMode
deriving DecidableEq

/-- Modelled from the spec: POSIX shell word splitting (see above).
`acc` is the word accumulated so far, `inw` whether a word has begun. -/
def shParseAux : ShMode → List Nat → List Nat → Bool → Option (List (List Nat))
  | .norm, [], acc, inw => some (if inw then [acc] else [])
  | .norm, c :: rest, acc, inw =>
    if c = 32 ∨ c = 9 ∨ c = 10 then
      if inw then (shParseAux .norm rest [] false).map (acc :: ·)
      else shParseAux .norm rest [] false
    else if c = 39 then shParseAux .squote rest acc true
    else if c = 92 then
      match rest with
      | [] => none
      | d :: rest2 =>
        if d = 10 then shParseAux .norm rest2 acc inw
        else shParseAux .norm rest2 (acc ++ [d]) true
    else if shLiteral c ∧ (inw ∨ c ≠ 126) then shParseAux .norm rest (acc ++ [c]) true
    else none
  | .squote, [], _, _ => none
  | .squote, c :: rest, acc, _ =>
    if c = 39 then shParseAux .norm rest acc true
    else shParseAux .squote rest (acc ++ [c]) true

/-- Parse a whole input line into shell words (see `shParseAux`). -/
def shParse (input : List Nat) : Option (List (List Nat)) :=
  shParseAux .norm input [] false

/-! ### Mount options (`mountargs`, `find_mountarg`, `mountslot`,
pa-jail.cc lines 405-446, 465-478, 513-541).  Option words are `List Char`;
flag bitmaps are `Nat` (C `unsigned long`), with the Linux `MS_*` values. -/

/-- The `mountargs` table on the `__linux__` path: recognized option name,
`MS_*` flag value, and the `unparse` bit.  `rw` carries value 0. -/
def mountargs : List (List Char × Nat × Bool) :=
  [("bind".toList, 4096, false),
   ("noatime".toList, 1024, true),
   ("nodev".toList, 4, true),
   ("nodiratime".toList, 2048, true),
   ("noexec".toList, 8, true),
   ("nosuid".toList, 2, true),
   ("private".toList, 262144, true),
   ("rec".toList, 16384, false),
   ("relatime".toList, 2097152, true),
   ("remount".toList, 32, true),
   ("ro".toList, 1, true),
   ("rw".toList, 0, true),
   ("slave".toList, 524288, true),
   ("strictatime".toList, 16777216, true),
   ("unbindable".toList, 131072, true)]

/-- `find_mountarg(name, namelen)`: linear search of `mountargs`. -/
def find_mountarg (name : List Char) : Option (List Char × Nat × Bool) :=
  mountargs.find? (fun ma => ma.1 = name)

/-- One step of the option-string scan used by the `mountslot` constructor:
`ok_first = mopt + strspn(mopt, ",")`, `ok_last = ok_first +
strcspn(ok_first, ",=")`, `ov_last = ok_last + strcspn(ok_last, ",")`.
Returns (skipped-commas-dropped input, option name, whole `k[=v]` token,
remainder). -/
def msToken (mopt : List Char) : List Char × List Char × List Char :=
  let rest1 := mopt.dropWhile (· = ',')
  let name := rest1.takeWhile (fun c => c ≠ ',' ∧ c ≠ '=')
  let afterName := rest1.drop name.length
  let value := afterName.takeWhile (· ≠ ',')
  (name, name ++ value, afterName.drop value.length)

/-- `MS_RDONLY` is bit 0; `opts &= ~MS_RDONLY` clears it. -/
def clearRdonly (opts : Nat) : Nat := 2 * (opts / 2)

/-- The option scan strictly consumes input: the remainder after one token is
shorter than the nonempty input. -/
theorem msToken_rem_lt (mopt : List Char) (h : mopt ≠ []) :
    (msToken mopt).2.2.length < mopt.length := by
  have hmlen : 0 < mopt.length := List.length_pos.mpr h
  have h1 : (mopt.dropWhile (· = ',')).length ≤ mopt.length :=
    (List.dropWhile_sublist _).length_le
  rcases hr : mopt.dropWhile (· = ',') with _ | ⟨c, cs⟩
  · simp [msToken, hr]
    omega
  · rw [hr] at h1
    have hc : ¬ (c = ',') := by
      have hne : List.dropWhile (fun x => decide (x = ',')) mopt ≠ [] := by
        rw [hr]; exact List.cons_ne_nil _ _
      have h2 := List.head_dropWhile_not (fun x => decide (x = ',')) (l := mopt) hne
      have h3 : (List.dropWhile (fun x => decide (x = ',')) mopt).head hne = c := by
        simp [hr]
      rw [h3] at h2
      simpa using h2
    simp only [msToken, hr, List.length_drop]
    by_cases hnm : ((c :: cs).takeWhile (fun x => decide (x ≠ ',' ∧ x ≠ '='))) = []
    · have hceq : c = '=' := by
        rw [List.takeWhile_cons] at hnm
        by_cases hd : c ≠ ',' ∧ c ≠ '='
        · simp [hd] at hnm
        · push_neg at hd
          exact hd hc
      have hv : 0 < (((c :: cs).drop
          ((c :: cs).takeWhile (fun x => decide (x ≠ ',' ∧ x ≠ '='))).length).takeWhile
            (fun x => decide (x ≠ ','))).length := by
        rw [hnm]
        simp [List.takeWhile_cons, hceq]
      simp only [hnm, List.length_nil, List.drop_zero] at hv ⊢
      simp only [List.length_cons] at h1 ⊢
      omega
    · have hnm1 : 0 < ((c :: cs).takeWhile (fun x => decide (x ≠ ',' ∧ x ≠ '='))).length :=
        List.length_pos.mpr hnm
      simp only [List.length_cons] at h1 ⊢
      omega

/-- The `while (mopt && *mopt)` loop of the `mountslot` constructor
(pa-jail.cc lines 467-477): recognized option names OR their flag value into
`opts`; unrecognized nonempty tokens are appended to `data`
(comma-separated). -/
def msOptsLoop : List Char → Nat → List Char → Nat × List Char
  | [], opts, data => (opts, data)
  | c :: rest, opts, data =>
    let t := msToken (c :: rest)
    match find_mountarg t.1 with
    | some ma => msOptsLoop t.2.2 (opts ||| ma.2.1) data
    | none =>
      if t.2.1 = [] then msOptsLoop t.2.2 opts data
      else msOptsLoop t.2.2 opts (data ++ (if data = [] then [] else [',']) ++ t.2.1)
termination_by l _ _ => l.length
decreasing_by
  all_goals
    simp_wf
    exact msToken_rem_lt _ (List.cons_ne_nil _ _)

/-- `mountslot::mountslot(fsname, type, mountopts)`: the `(opts, data)` pair
produced by parsing the option string. -/
def mountslotOpts (mopt : List Char) : Nat × List Char :=
  msOptsLoop mopt 0 []

/-- Scan position `ok_first` of one step of `add_mountopt`'s removal loop:
index `i` (the C `mopt` pointer) advanced by `strspn(mopt, ",")`. -/
def amoJ (data : List Char) (i : Nat) : Nat :=
  i + ((data.drop i).takeWhile (· = ',')).length

/-- Scan position `ok_last`: `ok_first` advanced by `strcspn(ok_first, ",=")`. -/
def amoK (data : List Char) (i : Nat) : Nat :=
  amoJ data i + ((data.drop (amoJ data i)).takeWhile (fun c => c ≠ ',' ∧ c ≠ '=')).length

/-- Scan position `ov_last`: `ok_last` advanced by `strcspn(ok_last, ",")`. -/
def amoM (data : List Char) (i : Nat) : Nat :=
  amoK data i + ((data.drop (amoK data i)).takeWhile (· ≠ ',')).length

/-- A nonempty scan position always advances: the three spans of one
`add_mountopt` removal-loop step cannot all be empty. -/
theorem amoSpan_pos (l : List Char) (h : l ≠ []) :
    0 < (l.takeWhile (· = ',')).length +
      ((l.drop (l.takeWhile (· = ',')).length).takeWhile
        (fun c => c ≠ ',' ∧ c ≠ '=')).length +
      ((l.drop ((l.takeWhile (· = ',')).length +
          ((l.drop (l.takeWhile (· = ',')).length).takeWhile
            (fun c => c ≠ ',' ∧ c ≠ '=')).length)).takeWhile (· ≠ ',')).length := by
  rcases l with _ | ⟨d, tl⟩
  · exact absurd rfl h
  · by_cases hcomma : d = ','
    · have : 0 < ((d :: tl).takeWhile (· = ',')).length := by
        rw [List.takeWhile_cons]
        simp [hcomma]
      omega
    · have ht1 : ((d :: tl).takeWhile (· = ',')).length = 0 := by
        rw [List.takeWhile_cons]
        simp [hcomma]
      rw [ht1]
      simp only [List.drop_zero, Nat.zero_add]
      by_cases heq : d = '='
      · have ht2 : ((d :: tl).takeWhile (fun c => decide (c ≠ ',' ∧ c ≠ '='))).length = 0 := by
          rw [List.takeWhile_cons]
          simp [heq]
        rw [ht2]
        simp only [List.drop_zero]
        have ht3 : 0 < ((d :: tl).takeWhile (fun c => decide (c ≠ ','))).length := by
          rw [List.takeWhile_cons]
          simp [hcomma]
        omega
      · have ht2 : 0 < ((d :: tl).takeWhile (fun c => decide (c ≠ ',' ∧ c ≠ '='))).length := by
          rw [List.takeWhile_cons]
          simp [heq, hcomma]
        omega

/-- Advancing a position by the length of a `takeWhile` span of the
remaining suffix stays inside the string. -/
theorem addSpan_le (data : List Char) (n : Nat) (p : Char → Bool)
    (h : n ≤ data.length) : n + ((data.drop n).takeWhile p).length ≤ data.length := by
  have h1 := (List.takeWhile_sublist (l := data.drop n) p).length_le
  simp only [List.length_drop] at h1
  omega

theorem amoJ_le (data : List Char) (i : Nat) (h : i ≤ data.length) :
    amoJ data i ≤ data.length :=
  addSpan_le data i _ h

theorem amoK_le (data : List Char) (i : Nat) (h : i ≤ data.length) :
    amoK data i ≤ data.length :=
  addSpan_le data (amoJ data i) _ (amoJ_le data i h)

theorem amoM_le (data : List Char) (i : Nat) (h : i ≤ data.length) :
    amoM data i ≤ data.length :=
  addSpan_le data (amoK data i) _ (amoK_le data i h)

theorem lt_amoM (data : List Char) (i : Nat) (h : i < data.length) :
    i < amoM data i := by
  have hne : data.drop i ≠ [] := by
    intro hnil
    have hl := congrArg List.length hnil
    simp only [List.length_drop, List.length_nil] at hl
    omega
  have hpos := amoSpan_pos (data.drop i) hne
  have e1 : (data.drop i).drop ((data.drop i).takeWhile (· = ',')).length =
      data.drop (i + ((data.drop i).takeWhile (· = ',')).length) := by
    rw [List.drop_drop]
  rw [e1] at hpos
  have e2 : (data.drop i).drop (((data.drop i).takeWhile (· = ',')).length +
      ((data.drop (i + ((data.drop i).takeWhile (· = ',')).length)).takeWhile
        (fun c => c ≠ ',' ∧ c ≠ '=')).length) =
      data.drop (i + ((data.drop i).takeWhile (· = ',')).length +
        ((data.drop (i + ((data.drop i).takeWhile (· = ',')).length)).takeWhile
          (fun c => c ≠ ',' ∧ c ≠ '=')).length) := by
    rw [List.drop_drop]
    congr 1
    omega
  rw [e2] at hpos
  rw [amoM, amoK, amoJ]
  omega

/-- The token-removal loop in the unrecognized-option branch of
`add_mountopt` (pa-jail.cc lines 522-538).  `i` is the index of the C `mopt`
pointer in `data`.  A matching `k[=v]` token is spliced out together with the
separating commas before it (`data = [0,mopt) + [ov_last,end)`), and the
scan resumes at old index `ok_first` inside the new string, exactly as the C
code's `offset` arithmetic does.  Reads past the end of the string (which in
C read past the NUL terminator) act as the terminator and stop the loop. -/
def amoLoop (inoptName : List Char) (data : List Char) (i : Nat) : List Char :=
  if _h : i < data.length then
    if slice data (amoJ data i) (amoK data i) = inoptName then
      amoLoop inoptName (data.take i ++ data.drop (amoM data i)) (amoJ data i)
    else
      amoLoop inoptName data (amoM data i)
  else data
termination_by data.length - i
decreasing_by
  · have h1 : i ≤ amoJ data i := Nat.le_add_right _ _
    have h2 : amoM data i ≤ data.length := amoM_le data i (Nat.le_of_lt _h)
    have h3 : i < amoM data i := lt_amoM data i _h
    have hlen : (data.take i ++ data.drop (amoM data i)).length =
        i + (data.length - amoM data i) := by
      simp only [List.length_append, List.length_take, List.length_drop]
      omega
    simp only [hlen]
    omega
  · have h2 : amoM data i ≤ data.length := amoM_le data i (Nat.le_of_lt _h)
    have h3 : i < amoM data i := lt_amoM data i _h
    omega

/-- `mountslot::add_mountopt(inopt)` (pa-jail.cc lines 513-541): a recognized
option with nonzero value is ORed into `opts`; the recognized zero-valued
option (`rw`) clears `MS_RDONLY` instead; an unrecognized option has previous
tokens of the same name removed from `data` and is then appended. -/
def add_mountopt (inopt : List Char) (opts : Nat) (data : List Char) :
    Nat × List Char :=
  let inoptName := inopt.takeWhile (fun c => c ≠ ',' ∧ c ≠ '=')
  match find_mountarg inoptName with
  | some ma => if ma.2.1 ≠ 0 then (opts ||| ma.2.1, data) else (clearRdonly opts, data)
  | none =>
    let data1 := amoLoop inoptName data 0
    (opts, data1 ++ (if data1 = [] then [] else [',']) ++ inopt)

/-! ### Mount scheduling (`mountslot::mountable`, pa-jail.cc lines 550-575).
`mount_status` is the phase: 0 manifest-time, 1 pre-fork, 2 post-clone.
`delayed` models the global `delayed_mounts` vector, to which the pre-fork
branch appends `src` then `dst`. -/

/-- `mountslot::mountable(src, dst)` for a slot with the given `type` and
`wanted` bit: returns the boolean result and the updated deferred list. -/
def mountable (type : String) (wanted : Bool) (mount_status : Nat)
    (delayed : List String) (src dst : String) : Bool × List String :=
  if (src = "/proc" ∧ type = "proc") ∨ (src = "/dev/pts" ∧ type = "devpts") then
    (mount_status = 2, delayed)
  else if src = "/tmp" ∧ type = "tmpfs" then
    (mount_status ≠ 1, delayed)
  else if src = "/run" ∧ type = "tmpfs" then
    (false, delayed)
  else if (src = "/sys" ∧ type = "sysfs") ∨ (src = "/dev" ∧ type = "udev") ∨ wanted then
    if mount_status = 1 then (false, delayed ++ [src, dst])
    else (true, delayed)
  else
    (false, delayed)

/-! ### Termination decision (`jailownerinfo::check_child_timeout`,
pa-jail.cc lines 2825-2852).  The `waitpid(-1, WNOHANG)` drain loop is
abstracted by its observable outcome: `wait_errno` is `errno` after the loop
(`EAGAIN` = 11 or `ECHILD` = 10 when nothing went wrong) and `child_status`
is the value of `child_status_` after the loop (negative while the payload
child has not been reaped).  The timer comparisons against `gettimeofday`
are abstracted into the `timerisset`/`timercmp` booleans.  `SIGTERM` = 15. -/

/-- `check_child_timeout(child, waitpid)`: returns the controller exit code,
or −1 (with `errno = EAGAIN`) when no termination cause holds yet. -/
def check_child_timeout (wait_errno : Nat) (child_status : Int) (waitpid : Bool)
    (got_sigterm : Bool) (expiry_set expiry_passed idle_set idle_passed : Bool) :
    Int :=
  if wait_errno ≠ 11 ∧ wait_errno ≠ 10 then 125
  else if child_status ≥ 0 ∧ waitpid then child_status
  else if got_sigterm then 128 + 15
  else if (expiry_set ∧ expiry_passed) ∨ (idle_set ∧ idle_passed) then 124
  else -1

/-! ### Policy file reading (`pajailconf::pajailconf()`, pa-jail.cc lines
1261-1285).  `buf_` is `char[8192]`.  The open/fstat/root-ownership checks
are outside this model (the claim conditions on them having passed); `read`
on a regular file delivers `min(size, 8192)` bytes. -/

/-- Result of the constructor's size handling. -/
inductive ConfRead where
  | ok (content : List Nat) : ConfRead
  | errEmpty : ConfRead
  | errTooBig : ConfRead
deriving DecidableEq

/-- The read/size logic of `pajailconf::pajailconf()`: `nr == 0` dies with
`Empty file`, `nr == sizeof(buf_)` dies with `Too big`. -/
def pajailconf_read (file : List Nat) : ConfRead :=
  let nr := min file.length 8192
  if nr = 0 then .errEmpty
  else if nr = 8192 then .errTooBig
  else .ok (file.take nr)

/-! ### Command construction in `jailownerinfo::exec` (pa-jail.cc lines
2326-2339).  `args` is `argv[0..argc)` after the `NAME=VALUE` environment
words have been stripped; the returned string is what is passed after `-c`
(`none` when `argc == 0`, i.e. just a login shell). -/

/-- The `// create command` block: one word is passed verbatim; with more
words the command is `shell_quote(argv[0])` followed by the `i = 0 .. argc-1`
loop appending `" " + shell_quote(argv[i])`. -/
def exec_command : List (List Nat) → Option (List Nat)
  | [] => none
  | [w] => some w
  | w :: ws => some ((w :: ws).foldl (fun acc x => acc ++ 32 :: shell_quote x) (shell_quote w))

/-! ### Policy evaluation (`pajailconf::allows_type`, `check_dirmatch`,
`path_endslash`, pa-jail.cc lines 131-137, 1316-1341, 1358-1415).

A configuration is modelled as the list of its rules, one per line, each rule
being the line's first two whitespace-separated words `(action, arg)` as
produced by `take_word` (further words on a line are skipped by the loop).
`treedir` bookkeeping only affects `treedir_`, never the allow bits, and is
omitted. -/

/-- `path_endslash(path)`: append `/` unless the path already ends in one. -/
def path_endslashC (p : List Char) : List Char :=
  if p = [] ∨ p.getLast? ≠ some '/' then p ++ ['/'] else p

/-- Modelled from the spec: `fnmatch(pattern, str, FNM_PATHNAME | FNM_PERIOD)`
is C library code, modelled from the spec's "glob matching using path-aware,
period-aware semantics (matching leading `.` only if explicitly written)":
`*`/`?` never match `/` nor a period at the start of a component (a wildcard
standing at such a period position fails the match, as in glibc); every other
pattern character (bracket expressions are not used by this development's
inputs and are treated as literal) matches itself.  `atStart` is true at the
start of the string and after each `/`. -/
def globM : List Char → List Char → Bool → Bool
  | [], [], _ => true
  | [], _ :: _, _ => false
  | '*' :: p, s, atStart =>
    match s with
    | [] => globM p [] atStart
    | c :: s' =>
      if atStart ∧ c = '.' then false
      else globM p (c :: s') atStart || (c ≠ '/' && globM ('*' :: p) s' false)
  | '?' :: p, s, atStart =>
    match s with
    | [] => false
    | c :: s' => if c = '/' ∨ (atStart ∧ c = '.') then false else globM p s' false
  | c :: p, s, _ =>
    match s with
    | [] => false
    | d :: s' => c = d && globM p s' (decide (d = '/'))
termination_by p s _ => (s.length, p.length)

/-- The `superdir` pre-truncation of `check_dirmatch`: keep the prefix of
`str` through its `k`-th slash (`k` slashes having been counted in the
pattern); `none` when `str` has fewer slashes (the C loop returns false). -/
def takeThruSlashes : Nat → List Char → Option (List Char)
  | 0, _ => some []
  | _ + 1, [] => none
  | k + 1, c :: rest =>
    if c = '/' then (takeThruSlashes k rest).map (c :: ·)
    else (takeThruSlashes (k + 1) rest).map (c :: ·)

/-- `check_dirmatch(pattern, str, superdir)` (pa-jail.cc lines 1316-1341),
with the `store_superdir` output dropped (it only feeds `treedir_`). -/
def check_dirmatch (pattern str : List Char) (superdir : Bool) : Bool :=
  if superdir then
    match takeThruSlashes (pattern.countP (· = '/')) str with
    | none => false
    | some str' => globM pattern str' true
  else
    globM pattern str true

/-- `check_action(action, prefix, type)`: the action word is exactly
`prefix` followed by `type` (the C length/`memcmp` pair). -/
def check_action (action pre type : List Char) : Bool :=
  action = pre ++ type

/-- The verdict encoded by an action word: `some 0` for `disable<type>` /
`no<type>`, `some 1` for `enable<type>` / `allow<type>`, `none` for any other
word (including `treedir`, which never touches the allow bits). -/
def atAllowed (type action : List Char) : Option Int :=
  if check_action action "disable".toList type ∨ check_action action "no".toList type then
    some 0
  else if check_action action "enable".toList type ∨ check_action action "allow".toList type then
    some 1
  else
    none

/-- One iteration of the `allows_type` rule loop on the running state
`(allowed_globally, allowed_locally)`. -/
def allows_type_step (type dir : List Char) (superdir : Bool)
    (st : Int × Int) (rule : List Char × List Char) : Int × Int :=
  match atAllowed type rule.1 with
  | none => st
  | some allowed =>
    if rule.2 = [] then
      (allowed, if allowed = 0 then 0 else st.2)
    else if rule.2.head? = some '/' then
      if check_dirmatch (path_endslashC rule.2) dir (superdir || decide (allowed ≤ 0)) then
        (st.1, allowed)
      else st
    else st

/-- `pajailconf::allows_type(type, dir, superdir)`: fold the rules over the
initial state `(-1, -1)` and return
`allowed_globally != 0 && allowed_locally > 0`. -/
def allows_type (conf : List (List Char × List Char)) (type dir : List Char)
    (superdir : Bool) : Bool :=
  let d := path_endslashC dir
  let st := conf.foldl (allows_type_step type d superdir) (-1, -1)
  st.1 ≠ 0 ∧ st.2 > 0

/-- A rule's contribution to the global bit: its verdict when it is a
recognized rule with no argument. -/
def ruleGlobal (type : List Char) (r : List Char × List Char) : Option Int :=
  match atAllowed type r.1 with
  | none => none
  | some a => if r.2 = [] then some a else none

/-- A rule's contribution to the local bit: `0` for a pattern-less disable,
its verdict for a pattern rule whose pattern matches the directory. -/
def ruleLocal (type dir : List Char) (superdir : Bool)
    (r : List Char × List Char) : Option Int :=
  match atAllowed type r.1 with
  | none => none
  | some a =>
    if r.2 = [] then
      if a = 0 then some 0 else none
    else if r.2.head? = some '/' then
      if check_dirmatch (path_endslashC r.2) dir (superdir || decide (a ≤ 0)) then
        some a
      else none
    else none

/-- The last-match-wins reference evaluation: the global bit is the verdict
of the textually last pattern-less rule; the local bit is the contribution of
the textually last rule that contributes to it (a matching pattern rule, or a
pattern-less disable). -/
def lastMatchEval (conf : List (List Char × List Char)) (type dir : List Char)
    (superdir : Bool) : Bool :=
  let d := path_endslashC dir
  let g := (conf.reverse.findSome? (ruleGlobal type)).getD (-1)
  let l := (conf.reverse.findSome? (ruleLocal type d superdir)).getD (-1)
  g ≠ 0 ∧ l > 0

/-! ### Filename validation (`check_filename`, pa-jail.cc lines 1501-1528).
Bytes again; 46 is `.`, 47 is `/`, 126 is `~`. -/

/-- The `allowed_chars` string
`"/0123456789-._A..Za..z~"` of `check_filename`: note it contains no space. -/
def cfAllowed (c : Nat) : Bool :=
  c = 47 || (48 ≤ c ∧ c ≤ 57) || c = 45 || c = 46 || c = 95 ||
    (65 ≤ c ∧ c ≤ 90) || (97 ≤ c ∧ c ≤ 122) || c = 126

/-- Modelled from the spec: the allowlist as the specification states it,
`/0-9A-Za-z-._~` *plus the space character*. -/
def cfAllowedClaim (c : Nat) : Bool :=
  cfAllowed c || c = 32

/-- The copying `for (s ...)` loop of `check_filename`.  `rem` is the suffix
at the cursor `s`, `isBegin` whether `s == name.c_str()`, `prev` the byte at
`s[-1]` (unused when `isBegin`), `out` the bytes written so far.  Lookahead
`s[1]`/`s[2]` reads the terminating NUL as byte 0 at the end of the string;
in the `"…/."` case the C code steps one past the terminator and reads an
out-of-bounds byte, modelled as the terminator (loop exit).  The `..`
component check returns the empty string, modelled as `none`. -/
def cfLoop : List Nat → Bool → Nat → List Nat → Option (List Nat)
  | [], _, _, out => some out
  | c :: rest, isBegin, prev, out =>
    if c = 46 ∧ (rest.headD 0 = 47 ∨ rest.headD 0 = 0) ∧ ¬isBegin ∧ prev = 47 then
      if rest = [] then some out
      else cfLoop (rest.tail.dropWhile (· = 47)) false 47 out
    else if c = 46 ∧ rest.headD 0 = 46 ∧ (rest.tail.headD 0 = 47 ∨ rest.tail.headD 0 = 0) ∧
        (isBegin ∨ prev = 47) then
      none
    else
      cfLoop (if c = 47 then rest.dropWhile (· = 47) else rest) false c (out ++ [c])
termination_by rem _ _ _ => rem.length
decreasing_by
  · have h1 := (List.dropWhile_sublist (l := rest.tail) (· = 47)).length_le
    have h2 : rest.tail.length ≤ rest.length := by
      cases rest
      · simp
      · simp
    simp only [List.length_cons]
    omega
  · simp only [List.length_cons]
    split
    · have := (List.dropWhile_sublist (l := rest) (· = 47)).length_le
      omega
    · omega

/-- The final `while (out > buf + 1 && out[-1] == '/') --out;` of
`check_filename`: strip trailing slashes but keep at least one byte. -/
def trimSlash (out : List Nat) : List Nat :=
  if 1 < out.length ∧ out.getLast? = some 47 then trimSlash out.dropLast else out
termination_by out.length
decreasing_by
  rename_i h
  rw [List.length_dropLast]
  omega

/-- `check_filename(name)`: reject on a byte outside `allowed_chars`, an
empty name, a leading `~`, or length ≥ 1024 (`sizeof buf`); otherwise run the
copying loop and strip trailing slashes. -/
def check_filename (name : List Nat) : List Nat :=
  if ¬ name.all cfAllowed ∨ name = [] ∨ name.headD 0 = 126 ∨ 1024 ≤ name.length then []
  else
    match cfLoop name true 0 [] with
    | none => []
    | some out => trimSlash out

/-- Component-level normalization, at the start of a non-first component
(the loop state right after a copied `/`): reject a `..` component; drop a
`.` component together with its trailing slash run; keep any other component
followed by a single `/` when more follows. -/
def specCS (rem : List Nat) : Option (List Nat) :=
  let comp := rem.takeWhile (· ≠ 47)
  match h : rem.drop comp.length with
  | [] => if comp = [46, 46] then none else some (if comp = [46] then [] else comp)
  | _ :: rest2 =>
    if comp = [46, 46] then none
    else if comp = [46] then specCS (rest2.dropWhile (· = 47))
    else (specCS (rest2.dropWhile (· = 47))).map (fun t => comp ++ 47 :: t)
termination_by rem.length
decreasing_by
  all_goals
    have h1 := (List.dropWhile_sublist (l := rest2) (· = 47)).length_le
    have h2 : (rem.drop (rem.takeWhile (fun c => decide (c ≠ 47))).length).length =
        rem.length - (rem.takeWhile (fun c => decide (c ≠ 47))).length := by
      simp
    rw [h] at h2
    simp only [List.length_cons] at h2
    have h3 := (List.takeWhile_sublist (l := rem) (fun c => decide (c ≠ 47))).length_le
    omega

/-- Component-level normalization of the whole name: the first component is
kept verbatim (a leading `.` component is not collapsed and a first `..`
component rejects); later components follow `specCS`. -/
def specBegin (name : List Nat) : Option (List Nat) :=
  let comp := name.takeWhile (· ≠ 47)
  match name.drop comp.length with
  | [] => if comp = [46, 46] then none else some comp
  | _ :: rest2 =>
    if comp = [46, 46] then none
    else (specCS (rest2.dropWhile (· = 47))).map (fun t => comp ++ 47 :: t)

/-- The specification-level restatement of `check_filename`: same rejection
gate, then component normalization and trailing-slash stripping. -/
def check_filename_spec (name : List Nat) : List Nat :=
  if ¬ name.all cfAllowed ∨ name = [] ∨ name.headD 0 = 126 ∨ 1024 ≤ name.length then []
  else
    match specBegin name with
    | none => []
    | some out => trimSlash out

/-! ### The byte buffer (`struct jbuffer`, pa-jail.cc lines 1839-2046).
The buffer contents are a `List Nat` of length `cap`; bytes beyond `tail`
model the uninitialized storage (zero after allocation here).  The system
calls inside `read`/`write` are abstracted by events recording the
observable outcome (`read` returning `n` bytes, end of file, a fatal error,
or `EINTR`/`EAGAIN`). -/

structure JBuf where
  buf : List Nat
  head : Nat
  tail : Nat
  cap : Nat
  bufpos : Nat
  rclosed : Bool
  wclosed : Bool
  rerrno : Nat

/-- The structural well-formedness of a buffer: the claimed invariant
`head ≤ tail ≤ cap` together with the storage having `cap` cells (and the
positive capacity every `jbuffer` is constructed with). -/
def JBufWF (b : JBuf) : Prop :=
  b.head ≤ b.tail ∧ b.tail ≤ b.cap ∧ b.buf.length = b.cap ∧ 0 < b.cap

/-- The `while (tail_ + n > ncap) ncap = min(ncap * 2, ncap + 131072);` loop
of `jbuffer::reserve`.  (For `ncap = 0` and a positive target the C loop
would not terminate; that state is unreachable, buffers having positive
capacity, and is mapped to 0.) -/
def growCap (tn ncap : Nat) : Nat :=
  if tn ≤ ncap then ncap
  else if ncap = 0 then 0
  else growCap tn (min (2 * ncap) (ncap + 131072))
termination_by tn - ncap
decreasing_by
  rename_i h1 h2
  have : ncap < min (2 * ncap) (ncap + 131072) := by omega
  omega

/-- `jbuffer::reserve(n)`: `n == 0` is replaced by `min(cap_, 131072)`, the
capacity grows to `growCap`, and the first `tail_` bytes are copied into the
fresh storage (the rest is fresh allocation, modelled as zeros). -/
def reserve (b : JBuf) (n : Nat) : JBuf :=
  let n' := if n = 0 then min b.cap 131072 else n
  let ncap := growCap (b.tail + n') b.cap
  { b with buf := b.buf.take b.tail ++ List.replicate (ncap - b.tail) 0, cap := ncap }

/-- `jbuffer::append(first, last)`: reserve if fewer than `n` bytes of room,
then `memcpy` at `tail_` and advance `tail_`. -/
def appendRange (b : JBuf) (bs : List Nat) : JBuf :=
  let b' := if b.cap - b.tail < bs.length then reserve b bs.length else b
  { b' with
    buf := b'.buf.take b'.tail ++ bs ++ b'.buf.drop (b'.tail + bs.length),
    tail := b'.tail + bs.length }

/-- `jbuffer::append(char)`: reserve (with `n = 0`) when full, then store one
byte at `tail_`. -/
def appendByte (b : JBuf) (c : Nat) : JBuf :=
  let b' := if b.tail = b.cap then reserve b 0 else b
  { b' with
    buf := b'.buf.take b'.tail ++ [c] ++ b'.buf.drop (b'.tail + 1),
    tail := b'.tail + 1 }

/-- Observable outcome of the `::read` system call inside `jbuffer::read`. -/
inductive ReadEv where
  | data (bs : List Nat) : ReadEv
  | eof : ReadEv
  | err (e : Nat) : ReadEv
  | retry : ReadEv

/-- `jbuffer::read(from)`: when the fd is valid, the reader is open and there
is room, incorporate the outcome: received bytes are stored at `tail_`;
end-of-file closes the reader; a fatal error closes the reader and records
`errno`; `EINTR`/`EAGAIN` changes nothing. -/
def jread (b : JBuf) (fromFd : Int) (ev : ReadEv) : JBuf :=
  if 0 ≤ fromFd ∧ ¬b.rclosed ∧ b.tail ≠ b.cap then
    match ev with
    | .data bs =>
      { b with buf := b.buf.take b.tail ++ bs ++ b.buf.drop (b.tail + bs.length),
               tail := b.tail + bs.length }
    | .eof => { b with rclosed := true }
    | .err e => { b with rclosed := true, rerrno := e }
    | .retry => b
  else b

/-- Observable outcome of the `::write` system call inside
`jbuffer::write`. -/
inductive WriteEv where
  | wrote (nw : Nat) : WriteEv
  | errFatal : WriteEv
  | retry : WriteEv

/-- `jbuffer::write(to, off)`: never touches `head_`/`tail_`/`buf_`; a
successful write advances the caller's offset, a fatal error sets
`wclosed_`. -/
def jwrite (b : JBuf) (toFd : Int) (off : Nat) (ev : WriteEv) : JBuf × Nat :=
  if 0 ≤ toFd ∧ ¬b.wclosed ∧ off ≠ b.bufpos + b.tail then
    match ev with
    | .wrote nw => (b, off + nw)
    | .errFatal => ({ b with wclosed := true }, off)
    | .retry => (b, off)
  else (b, off)

/-- `jbuffer::consume_to(off)` (pa-jail.cc lines 2021-2030): set
`head_ = off - bufpos_`; when `tail_ ≥ 3·cap_/4`, `memmove` the live bytes to
the front and advance `bufpos_`. -/
def consume_to (b : JBuf) (off : Nat) : JBuf :=
  let h := off - b.bufpos
  if 3 * b.cap / 4 ≤ b.tail then
    { b with
      buf := (b.buf.drop h).take (b.tail - h) ++ b.buf.drop (b.tail - h),
      head := 0,
      tail := b.tail - h,
      bufpos := b.bufpos + h }
  else
    { b with head := h }

/-- A buffer operation of the claimed interface. -/
inductive JOp where
  | appendB (c : Nat) : JOp
  | appendR (bs : List Nat) : JOp
  | read (fromFd : Int) (ev : ReadEv) : JOp
  | write (toFd : Int) (off : Nat) (ev : WriteEv) : JOp
  | consume (off : Nat) : JOp

/-- Validity of one operation at a state: offsets passed to `write` /
`consume_to` lie in `[bufpos+head, bufpos+tail]` (the function's own
`assert`), the kernel returns at most the requested byte count to `read`,
and a successful `write` moves by at most the pending byte count. -/
def JOpOK (b : JBuf) : JOp → Prop
  | .appendB _ => True
  | .appendR _ => True
  | .read _ ev =>
    match ev with
    | .data bs => 0 < bs.length ∧ bs.length ≤ b.cap - b.tail
    | _ => True
  | .write _ off ev =>
    b.bufpos + b.head ≤ off ∧ off ≤ b.bufpos + b.tail ∧
      (match ev with
       | .wrote nw => 0 < nw ∧ nw ≤ b.bufpos + b.tail - off
       | _ => True)
  | .consume off => b.bufpos + b.head ≤ off ∧ off ≤ b.bufpos + b.tail

/-- Apply one operation. -/
def jstep (b : JBuf) : JOp → JBuf
  | .appendB c => appendByte b c
  | .appendR bs => appendRange b bs
  | .read f ev => jread b f ev
  | .write t off ev => (jwrite b t off ev).1
  | .consume off => consume_to b off

/-- Apply a sequence of operations. -/
def jrun (b : JBuf) (ops : List JOp) : JBuf :=
  ops.foldl jstep b

/-- Every operation of the sequence is valid at the state it is applied
to. -/
def ValidSeq : JBuf → List JOp → Prop
  | _, [] => True
  | b, op :: ops => JOpOK b op ∧ ValidSeq (jstep b op) ops

/-! ### JSON escaping (`jbuffer::append_json_chars`, pa-jail.cc lines
1907-1972).  The function is modelled as producing the pair (bytes appended
to the buffer, unconsumed trailing bytes); the C function returns the pointer
to the first unconsumed byte.  Bytes: 127 is `\x7F`, 92 `\`, 34 `"`. -/

/-- `hex[n]` for the table `"0123456789ABCDEF"`. -/
def jhex (n : Nat) : Nat := if n < 10 then 48 + n else 65 + (n - 10)

/-- `jbuffer::append_json_chars(first, last)`: NUL and bytes at which no
valid UTF-8 sequence starts are replaced by `\x7F` (one per lead byte, the
scan resuming at the following byte); control bytes, `\` and `"` are
JSON-escaped; ASCII and well-formed multi-byte sequences pass through; a
valid but truncated sequence at the end of the range is left unconsumed. -/
def appendJsonChars : List Nat → List Nat × List Nat
  | [] => ([], [])
  | c :: rest =>
    if c = 0 then
      let r := appendJsonChars rest
      (127 :: r.1, r.2)
    else if c < 32 ∨ c = 92 ∨ c = 34 then
      let esc :=
        if c = 8 then [92, 98]
        else if c = 12 then [92, 102]
        else if c = 10 then [92, 110]
        else if c = 13 then [92, 114]
        else if c = 9 then [92, 116]
        else if 32 ≤ c then [92, c]
        else [92, 117, 48, 48, jhex (c / 16), jhex (c % 16)]
      let r := appendJsonChars rest
      (esc ++ r.1, r.2)
    else if c < 128 then
      let r := appendJsonChars rest
      (c :: r.1, r.2)
    else if c < 194 ∨ 244 < c then
      let r := appendJsonChars rest
      (127 :: r.1, r.2)
    else
      match rest with
      | [] => ([], [c])
      | c1 :: rest1 =>
        if c1 < 128 ∨ 191 < c1 then
          let r := appendJsonChars (c1 :: rest1)
          (127 :: r.1, r.2)
        else if c < 224 then
          let r := appendJsonChars rest1
          (c :: c1 :: r.1, r.2)
        else if (c = 224 ∧ c1 < 160) ∨ (c = 237 ∧ 159 < c1) ∨
            (c = 240 ∧ c1 < 144) ∨ (c = 244 ∧ 143 < c1) then
          let r := appendJsonChars (c1 :: rest1)
          (127 :: r.1, r.2)
        else
          match rest1 with
          | [] => ([], [c, c1])
          | c2 :: rest2 =>
            if c2 < 128 ∨ 191 < c2 then
              let r := appendJsonChars (c1 :: c2 :: rest2)
              (127 :: r.1, r.2)
            else if c < 240 then
              let r := appendJsonChars rest2
              (c :: c1 :: c2 :: r.1, r.2)
            else
              match rest2 with
              | [] => ([], [c, c1, c2])
              | c3 :: rest3 =>
                if c3 < 128 ∨ 191 < c3 then
                  let r := appendJsonChars (c1 :: c2 :: c3 :: rest3)
                  (127 :: r.1, r.2)
                else
                  let r := appendJsonChars rest3
                  (c :: c1 :: c2 :: c3 :: r.1, r.2)
termination_by l => l.length
decreasing_by
  all_goals simp_wf
  all_goals omega

/-- A UTF-8 continuation byte (`0x80..0xBF`). -/
def jsonCont (c : Nat) : Bool := 128 ≤ c ∧ c ≤ 191

/-- Input made of JSON-safe scalars: printable ASCII other than `"` and `\`,
or well-formed (shortest-form, non-surrogate) multi-byte UTF-8 sequences.
This is the class `append_json_chars` passes through unchanged. -/
inductive JsonScalars : List Nat → Prop where
  | nil : JsonScalars []
  | ascii (c : Nat) (rest : List Nat) : 32 ≤ c → c ≤ 127 → c ≠ 34 → c ≠ 92 →
      JsonScalars rest → JsonScalars (c :: rest)
  | two (c c1 : Nat) (rest : List Nat) : 194 ≤ c → c ≤ 223 → 128 ≤ c1 → c1 ≤ 191 →
      JsonScalars rest → JsonScalars (c :: c1 :: rest)
  | three (c c1 c2 : Nat) (rest : List Nat) : 224 ≤ c → c ≤ 239 → 128 ≤ c1 → c1 ≤ 191 →
      128 ≤ c2 → c2 ≤ 191 → ¬(c = 224 ∧ c1 < 160) → ¬(c = 237 ∧ 159 < c1) →
      JsonScalars rest → JsonScalars (c :: c1 :: c2 :: rest)
  | four (c c1 c2 c3 : Nat) (rest : List Nat) : 240 ≤ c → c ≤ 244 → 128 ≤ c1 →
      c1 ≤ 191 → 128 ≤ c2 → c2 ≤ 191 → 128 ≤ c3 → c3 ≤ 191 → ¬(c = 240 ∧ c1 < 144) →
      ¬(c = 244 ∧ 143 < c1) → JsonScalars rest →
      JsonScalars (c :: c1 :: c2 :: c3 :: rest)

/-- A proper prefix of a single well-formed multi-byte UTF-8 sequence (or
nothing): the shapes `append_json_chars` may leave unconsumed. -/
def truncUtf8 : List Nat → Bool
  | [] => true
  | [c] => 194 ≤ c ∧ c ≤ 244
  | [c, c1] => 224 ≤ c ∧ c ≤ 244 ∧ jsonCont c1 ∧ ¬(c = 224 ∧ c1 < 160) ∧
      ¬(c = 237 ∧ 159 < c1) ∧ ¬(c = 240 ∧ c1 < 144) ∧ ¬(c = 244 ∧ 143 < c1)
  | [c, c1, c2] => 240 ≤ c ∧ c ≤ 244 ∧ jsonCont c1 ∧ jsonCont c2 ∧
      ¬(c = 240 ∧ c1 < 144) ∧ ¬(c = 244 ∧ 143 < c1)
  | _ => false

/-! ## Theorems -/

/-! ### C8 helpers: one-step evaluation lemmas for `append_json_chars` -/

theorem aj_nul (t : List Nat) :
    appendJsonChars (0 :: t) = (127 :: (appendJsonChars t).1, (appendJsonChars t).2) := by
  rw [appendJsonChars.eq_def]
  simp

theorem aj_esc (c : Nat) (t : List Nat) (h1 : ¬(c = 0)) (h2 : c < 32 ∨ c = 92 ∨ c = 34) :
    appendJsonChars (c :: t) =
      ((if c = 8 then [92, 98]
        else if c = 12 then [92, 102]
        else if c = 10 then [92, 110]
        else if c = 13 then [92, 114]
        else if c = 9 then [92, 116]
        else if 32 ≤ c then [92, c]
        else [92, 117, 48, 48, jhex (c / 16), jhex (c % 16)]) ++ (appendJsonChars t).1,
       (appendJsonChars t).2) := by
  rw [appendJsonChars.eq_def]
  simp only []
  rw [if_neg h1, if_pos h2]

theorem aj_ascii (c : Nat) (t : List Nat) (h2 : ¬(c < 32 ∨ c = 92 ∨ c = 34)) (h3 : c < 128) :
    appendJsonChars (c :: t) = (c :: (appendJsonChars t).1, (appendJsonChars t).2) := by
  have h1 : ¬(c = 0) := by omega
  rw [appendJsonChars.eq_def]
  simp only []
  rw [if_neg h1, if_neg h2, if_pos h3]

theorem aj_badlead (c : Nat) (t : List Nat) (ha : 128 ≤ c) (hb : c < 194 ∨ 244 < c) :
    appendJsonChars (c :: t) = (127 :: (appendJsonChars t).1, (appendJsonChars t).2) := by
  rw [appendJsonChars.eq_def]
  simp only []
  rw [if_neg (by omega), if_neg (by omega : ¬(c < 32 ∨ c = 92 ∨ c = 34)),
    if_neg (by omega), if_pos hb]

theorem aj_lead_end (c : Nat) (ha : 194 ≤ c) (hb : c ≤ 244) :
    appendJsonChars [c] = ([], [c]) := by
  rw [appendJsonChars.eq_def]
  simp only []
  rw [if_neg (by omega), if_neg (by omega : ¬(c < 32 ∨ c = 92 ∨ c = 34)),
    if_neg (by omega), if_neg (by omega : ¬(c < 194 ∨ 244 < c))]

theorem aj_badcont1 (c c1 : Nat) (t : List Nat) (ha : 194 ≤ c) (hb : c ≤ 244)
    (hc : c1 < 128 ∨ 191 < c1) :
    appendJsonChars (c :: c1 :: t) =
      (127 :: (appendJsonChars (c1 :: t)).1, (appendJsonChars (c1 :: t)).2) := by
  rw [appendJsonChars.eq_def]
  simp only []
  rw [if_neg (by omega), if_neg (by omega : ¬(c < 32 ∨ c = 92 ∨ c = 34)),
    if_neg (by omega), if_neg (by omega : ¬(c < 194 ∨ 244 < c)), if_pos hc]

theorem aj_two (c c1 : Nat) (t : List Nat) (ha : 194 ≤ c) (hb : c ≤ 223)
    (hc : 128 ≤ c1) (hd : c1 ≤ 191) :
    appendJsonChars (c :: c1 :: t) =
      (c :: c1 :: (appendJsonChars t).1, (appendJsonChars t).2) := by
  rw [appendJsonChars.eq_def]
  simp only []
  rw [if_neg (by omega), if_neg (by omega : ¬(c < 32 ∨ c = 92 ∨ c = 34)), if_neg (by omega),
    if_neg (by omega : ¬(c < 194 ∨ 244 < c)), if_neg (by omega : ¬(c1 < 128 ∨ 191 < c1)),
    if_pos (by omega : c < 224)]

theorem aj_overlong (c c1 : Nat) (t : List Nat) (ha : 224 ≤ c) (hb : c ≤ 244)
    (hc : 128 ≤ c1) (hd : c1 ≤ 191)
    (hov : (c = 224 ∧ c1 < 160) ∨ (c = 237 ∧ 159 < c1) ∨
      (c = 240 ∧ c1 < 144) ∨ (c = 244 ∧ 143 < c1)) :
    appendJsonChars (c :: c1 :: t) =
      (127 :: (appendJsonChars (c1 :: t)).1, (appendJsonChars (c1 :: t)).2) := by
  rw [appendJsonChars.eq_def]
  simp only []
  rw [if_neg (by omega), if_neg (by omega : ¬(c < 32 ∨ c = 92 ∨ c = 34)), if_neg (by omega),
    if_neg (by omega : ¬(c < 194 ∨ 244 < c)), if_neg (by omega : ¬(c1 < 128 ∨ 191 < c1)),
    if_neg (by omega : ¬(c < 224)), if_pos hov]

theorem aj_three_end (c c1 : Nat) (ha : 224 ≤ c) (hb : c ≤ 244)
    (hc : 128 ≤ c1) (hd : c1 ≤ 191)
    (hov : ¬((c = 224 ∧ c1 < 160) ∨ (c = 237 ∧ 159 < c1) ∨
      (c = 240 ∧ c1 < 144) ∨ (c = 244 ∧ 143 < c1))) :
    appendJsonChars [c, c1] = ([], [c, c1]) := by
  rw [appendJsonChars.eq_def]
  simp only []
  rw [if_neg (by omega), if_neg (by omega : ¬(c < 32 ∨ c = 92 ∨ c = 34)), if_neg (by omega),
    if_neg (by omega : ¬(c < 194 ∨ 244 < c)), if_neg (by omega : ¬(c1 < 128 ∨ 191 < c1)),
    if_neg (by omega : ¬(c < 224)), if_neg hov]

theorem aj_badcont2 (c c1 c2 : Nat) (t : List Nat) (ha : 224 ≤ c) (hb : c ≤ 244)
    (hc : 128 ≤ c1) (hd : c1 ≤ 191)
    (hov : ¬((c = 224 ∧ c1 < 160) ∨ (c = 237 ∧ 159 < c1) ∨
      (c = 240 ∧ c1 < 144) ∨ (c = 244 ∧ 143 < c1)))
    (he : c2 < 128 ∨ 191 < c2) :
    appendJsonChars (c :: c1 :: c2 :: t) =
      (127 :: (appendJsonChars (c1 :: c2 :: t)).1, (appendJsonChars (c1 :: c2 :: t)).2) := by
  rw [appendJsonChars.eq_def]
  simp only []
  rw [if_neg (by omega), if_neg (by omega : ¬(c < 32 ∨ c = 92 ∨ c = 34)), if_neg (by omega),
    if_neg (by omega : ¬(c < 194 ∨ 244 < c)), if_neg (by omega : ¬(c1 < 128 ∨ 191 < c1)),
    if_neg (by omega : ¬(c < 224)), if_neg hov, if_pos he]

theorem aj_three (c c1 c2 : Nat) (t : List Nat) (ha : 224 ≤ c) (hb : c ≤ 239)
    (hc : 128 ≤ c1) (hd : c1 ≤ 191)
    (hov : ¬((c = 224 ∧ c1 < 160) ∨ (c = 237 ∧ 159 < c1) ∨
      (c = 240 ∧ c1 < 144) ∨ (c = 244 ∧ 143 < c1)))
    (he : 128 ≤ c2) (hf : c2 ≤ 191) :
    appendJsonChars (c :: c1 :: c2 :: t) =
      (c :: c1 :: c2 :: (appendJsonChars t).1, (appendJsonChars t).2) := by
  rw [appendJsonChars.eq_def]
  simp only []
  rw [if_neg (by omega), if_neg (by omega : ¬(c < 32 ∨ c = 92 ∨ c = 34)), if_neg (by omega),
    if_neg (by omega : ¬(c < 194 ∨ 244 < c)), if_neg (by omega : ¬(c1 < 128 ∨ 191 < c1)),
    if_neg (by omega : ¬(c < 224)), if_neg hov, if_neg (by omega : ¬(c2 < 128 ∨ 191 < c2)),
    if_pos (by omega : c < 240)]

theorem aj_four_end (c c1 c2 : Nat) (ha : 240 ≤ c) (hb : c ≤ 244)
    (hc : 128 ≤ c1) (hd : c1 ≤ 191)
    (hov : ¬((c = 224 ∧ c1 < 160) ∨ (c = 237 ∧ 159 < c1) ∨
      (c = 240 ∧ c1 < 144) ∨ (c = 244 ∧ 143 < c1)))
    (he : 128 ≤ c2) (hf : c2 ≤ 191) :
    appendJsonChars [c, c1, c2] = ([], [c, c1, c2]) := by
  rw [appendJsonChars.eq_def]
  simp only []
  rw [if_neg (by omega), if_neg (by omega : ¬(c < 32 ∨ c = 92 ∨ c = 34)), if_neg (by omega),
    if_neg (by omega : ¬(c < 194 ∨ 244 < c)), if_neg (by omega : ¬(c1 < 128 ∨ 191 < c1)),
    if_neg (by omega : ¬(c < 224)), if_neg hov, if_neg (by omega : ¬(c2 < 128 ∨ 191 < c2)),
    if_neg (by omega : ¬(c < 240))]

theorem aj_badcont3 (c c1 c2 c3 : Nat) (t : List Nat) (ha : 240 ≤ c) (hb : c ≤ 244)
    (hc : 128 ≤ c1) (hd : c1 ≤ 191)
    (hov : ¬((c = 224 ∧ c1 < 160) ∨ (c = 237 ∧ 159 < c1) ∨
      (c = 240 ∧ c1 < 144) ∨ (c = 244 ∧ 143 < c1)))
    (he : 128 ≤ c2) (hf : c2 ≤ 191) (hg : c3 < 128 ∨ 191 < c3) :
    appendJsonChars (c :: c1 :: c2 :: c3 :: t) =
      (127 :: (appendJsonChars (c1 :: c2 :: c3 :: t)).1,
        (appendJsonChars (c1 :: c2 :: c3 :: t)).2) := by
  rw [appendJsonChars.eq_def]
  simp only []
  rw [if_neg (by omega), if_neg (by omega : ¬(c < 32 ∨ c = 92 ∨ c = 34)), if_neg (by omega),
    if_neg (by omega : ¬(c < 194 ∨ 244 < c)), if_neg (by omega : ¬(c1 < 128 ∨ 191 < c1)),
    if_neg (by omega : ¬(c < 224)), if_neg hov, if_neg (by omega : ¬(c2 < 128 ∨ 191 < c2)),
    if_neg (by omega : ¬(c < 240)), if_pos hg]

theorem aj_four (c c1 c2 c3 : Nat) (t : List Nat) (ha : 240 ≤ c) (hb : c ≤ 244)
    (hc : 128 ≤ c1) (hd : c1 ≤ 191)
    (hov : ¬((c = 224 ∧ c1 < 160) ∨ (c = 237 ∧ 159 < c1) ∨
      (c = 240 ∧ c1 < 144) ∨ (c = 244 ∧ 143 < c1)))
    (he : 128 ≤ c2) (hf : c2 ≤ 191) (hg : 128 ≤ c3) (hh : c3 ≤ 191) :
    appendJsonChars (c :: c1 :: c2 :: c3 :: t) =
      (c :: c1 :: c2 :: c3 :: (appendJsonChars t).1, (appendJsonChars t).2) := by
  rw [appendJsonChars.eq_def]
  simp only []
  rw [if_neg (by omega), if_neg (by omega : ¬(c < 32 ∨ c = 92 ∨ c = 34)), if_neg (by omega),
    if_neg (by omega : ¬(c < 194 ∨ 244 < c)), if_neg (by omega : ¬(c1 < 128 ∨ 191 < c1)),
    if_neg (by omega : ¬(c < 224)), if_neg hov, if_neg (by omega : ¬(c2 < 128 ∨ 191 < c2)),
    if_neg (by omega : ¬(c < 240)), if_neg (by omega : ¬(c3 < 128 ∨ 191 < c3))]

theorem aj_nil : appendJsonChars [] = ([], []) := by
  rw [appendJsonChars.eq_def]

theorem jhex_ge48 (n : Nat) : 48 ≤ jhex n := by
  unfold jhex
  split_ifs <;> omega

/-- Joint induction for C8: every output byte is at least 0x20, and the
unconsumed remainder is always a proper prefix of a valid multi-byte UTF-8
sequence. -/
theorem aj_main : ∀ (n : Nat) (xs : List Nat), xs.length ≤ n →
    (∀ b ∈ (appendJsonChars xs).1, 32 ≤ b) ∧
      truncUtf8 (appendJsonChars xs).2 = true := by
  intro n
  induction n with
  | zero =>
    intro xs hlen
    have hx : xs = [] := List.eq_nil_of_length_eq_zero (Nat.le_zero.mp hlen)
    subst hx
    rw [aj_nil]
    exact ⟨fun b hb => absurd hb (List.not_mem_nil b), rfl⟩
  | succ n ih =>
    intro xs hlen
    rcases xs with _ | ⟨c, rest⟩
    · rw [aj_nil]
      exact ⟨fun b hb => absurd hb (List.not_mem_nil b), rfl⟩
    · have hrl : rest.length ≤ n := by
        simp only [List.length_cons] at hlen
        omega
      by_cases h0 : c = 0
      · subst h0
        rw [aj_nul]
        obtain ⟨iha, ihb⟩ := ih rest hrl
        refine ⟨fun b hb => ?_, ihb⟩
        rcases List.mem_cons.mp hb with h | h
        · omega
        · exact iha b h
      by_cases hesc : c < 32 ∨ c = 92 ∨ c = 34
      · rw [aj_esc c rest h0 hesc]
        obtain ⟨iha, ihb⟩ := ih rest hrl
        refine ⟨fun b hb => ?_, ihb⟩
        rcases List.mem_append.mp hb with h | h
        · have hj1 := jhex_ge48 (c / 16)
          have hj2 := jhex_ge48 (c % 16)
          revert h
          split_ifs with e1 e2 e3 e4 e5 e6 <;>
            (intro h;
             simp only [List.mem_cons, List.not_mem_nil, or_false] at h) <;> omega
        · exact iha b h
      by_cases hascii : c < 128
      · rw [aj_ascii c rest hesc hascii]
        obtain ⟨iha, ihb⟩ := ih rest hrl
        refine ⟨fun b hb => ?_, ihb⟩
        rcases List.mem_cons.mp hb with h | h
        · omega
        · exact iha b h
      by_cases hbad : c < 194 ∨ 244 < c
      · rw [aj_badlead c rest (by omega) hbad]
        obtain ⟨iha, ihb⟩ := ih rest hrl
        refine ⟨fun b hb => ?_, ihb⟩
        rcases List.mem_cons.mp hb with h | h
        · omega
        · exact iha b h
      -- now 194 ≤ c ≤ 244
      rcases rest with _ | ⟨c1, rest1⟩
      · rw [aj_lead_end c (by omega) (by omega)]
        refine ⟨fun b hb => absurd hb (List.not_mem_nil b), ?_⟩
        simp [truncUtf8]
        omega
      have hr1l : (c1 :: rest1).length ≤ n := hrl
      have hr1l' : rest1.length ≤ n := by
        simp only [List.length_cons] at hrl
        omega
      by_cases hc1 : c1 < 128 ∨ 191 < c1
      · rw [aj_badcont1 c c1 rest1 (by omega) (by omega) hc1]
        obtain ⟨iha, ihb⟩ := ih (c1 :: rest1) hr1l
        refine ⟨fun b hb => ?_, ihb⟩
        rcases List.mem_cons.mp hb with h | h
        · omega
        · exact iha b h
      by_cases h2seq : c < 224
      · rw [aj_two c c1 rest1 (by omega) (by omega) (by omega) (by omega)]
        obtain ⟨iha, ihb⟩ := ih rest1 hr1l'
        refine ⟨fun b hb => ?_, ihb⟩
        rcases List.mem_cons.mp hb with h | h
        · omega
        rcases List.mem_cons.mp h with h | h
        · omega
        · exact iha b h
      by_cases hov : (c = 224 ∧ c1 < 160) ∨ (c = 237 ∧ 159 < c1) ∨
          (c = 240 ∧ c1 < 144) ∨ (c = 244 ∧ 143 < c1)
      · rw [aj_overlong c c1 rest1 (by omega) (by omega) (by omega) (by omega) hov]
        obtain ⟨iha, ihb⟩ := ih (c1 :: rest1) hr1l
        refine ⟨fun b hb => ?_, ihb⟩
        rcases List.mem_cons.mp hb with h | h
        · omega
        · exact iha b h
      rcases rest1 with _ | ⟨c2, rest2⟩
      · rw [aj_three_end c c1 (by omega) (by omega) (by omega) (by omega) hov]
        refine ⟨fun b hb => absurd hb (List.not_mem_nil b), ?_⟩
        simp [truncUtf8, jsonCont]
        omega
      have hr2l : (c2 :: rest2).length ≤ n := hr1l'
      have hr2l' : rest2.length ≤ n := by
        simp only [List.length_cons] at hr1l'
        omega
      by_cases hc2 : c2 < 128 ∨ 191 < c2
      · rw [aj_badcont2 c c1 c2 rest2 (by omega) (by omega) (by omega) (by omega) hov hc2]
        obtain ⟨iha, ihb⟩ := ih (c1 :: c2 :: rest2) hr1l
        refine ⟨fun b hb => ?_, ihb⟩
        rcases List.mem_cons.mp hb with h | h
        · omega
        · exact iha b h
      by_cases h3seq : c < 240
      · rw [aj_three c c1 c2 rest2 (by omega) (by omega) (by omega) (by omega) hov
          (by omega) (by omega)]
        obtain ⟨iha, ihb⟩ := ih rest2 hr2l'
        refine ⟨fun b hb => ?_, ihb⟩
        rcases List.mem_cons.mp hb with h | h
        · omega
        rcases List.mem_cons.mp h with h | h
        · omega
        rcases List.mem_cons.mp h with h | h
        · omega
        · exact iha b h
      rcases rest2 with _ | ⟨c3, rest3⟩
      · rw [aj_four_end c c1 c2 (by omega) (by omega) (by omega) (by omega) hov
          (by omega) (by omega)]
        refine ⟨fun b hb => absurd hb (List.not_mem_nil b), ?_⟩
        simp [truncUtf8, jsonCont]
        omega
      have hr3l : (c3 :: rest3).length ≤ n := hr2l'
      have hr3l' : rest3.length ≤ n := by
        simp only [List.length_cons] at hr2l'
        omega
      by_cases hc3 : c3 < 128 ∨ 191 < c3
      · rw [aj_badcont3 c c1 c2 c3 rest3 (by omega) (by omega) (by omega) (by omega) hov
          (by omega) (by omega) hc3]
        obtain ⟨iha, ihb⟩ := ih (c1 :: c2 :: c3 :: rest3) hr1l
        refine ⟨fun b hb => ?_, ihb⟩
        rcases List.mem_cons.mp hb with h | h
        · omega
        · exact iha b h
      · rw [aj_four c c1 c2 c3 rest3 (by omega) (by omega) (by omega) (by omega) hov
          (by omega) (by omega) (by omega) (by omega)]
        obtain ⟨iha, ihb⟩ := ih rest3 hr3l'
        refine ⟨fun b hb => ?_, ihb⟩
        rcases List.mem_cons.mp hb with h | h
        · omega
        rcases List.mem_cons.mp h with h | h
        · omega
        rcases List.mem_cons.mp h with h | h
        · omega
        rcases List.mem_cons.mp h with h | h
        · omega
        · exact iha b h

/-- C8 passthrough: a JSON-safe scalar sequence is copied through unchanged
with nothing left unconsumed. -/
theorem aj_pass : ∀ (xs : List Nat), JsonScalars xs → appendJsonChars xs = (xs, []) := by
  intro xs h
  induction h with
  | nil => exact aj_nil
  | ascii c rest h1 h2 h3 h4 _ ih =>
    rw [aj_ascii c rest (by omega) (by omega), ih]
  | two c c1 rest ha hb hc hd _ ih =>
    rw [aj_two c c1 rest ha hb hc hd, ih]
  | three c c1 c2 rest ha hb hc hd he hf hov1 hov2 _ ih =>
    rw [aj_three c c1 c2 rest ha hb hc hd
      (by intro hov; rcases hov with h | h | h | h <;> omega) he hf, ih]
  | four c c1 c2 c3 rest ha hb hc hd he hf hg hh hov1 hov2 _ ih =>
    rw [aj_four c c1 c2 c3 rest ha hb hc hd
      (by intro hov; rcases hov with h | h | h | h <;> omega) he hf hg hh, ih]

/-- C8: `append_json_chars` never emits a byte below 0x20 (control bytes are
escaped), copies every well-formed UTF-8 scalar sequence through unchanged
consuming it entirely, substitutes exactly one 0x7F in place of each NUL
byte, each invalid lead byte, each continuation byte where a lead is
expected, and each overlong/surrogate/out-of-range second byte or invalid
continuation byte (resuming the scan at the following byte), and the
unconsumed remainder is always a proper prefix of a single well-formed
multi-byte UTF-8 sequence. -/
theorem c8_append_json_chars :
    (∀ xs : List Nat, (∀ b ∈ (appendJsonChars xs).1, 32 ≤ b) ∧
        truncUtf8 (appendJsonChars xs).2 = true) ∧
    (∀ xs : List Nat, JsonScalars xs → appendJsonChars xs = (xs, [])) ∧
    (∀ t : List Nat, appendJsonChars (0 :: t) =
        (127 :: (appendJsonChars t).1, (appendJsonChars t).2)) ∧
    (∀ (c : Nat) (t : List Nat), 128 ≤ c → (c < 194 ∨ 244 < c) →
        appendJsonChars (c :: t) =
          (127 :: (appendJsonChars t).1, (appendJsonChars t).2)) ∧
    (∀ (c c1 : Nat) (t : List Nat), 194 ≤ c → c ≤ 244 → (c1 < 128 ∨ 191 < c1) →
        appendJsonChars (c :: c1 :: t) =
          (127 :: (appendJsonChars (c1 :: t)).1, (appendJsonChars (c1 :: t)).2)) ∧
    (∀ (c c1 : Nat) (t : List Nat), 224 ≤ c → c ≤ 244 → 128 ≤ c1 → c1 ≤ 191 →
        ((c = 224 ∧ c1 < 160) ∨ (c = 237 ∧ 159 < c1) ∨
          (c = 240 ∧ c1 < 144) ∨ (c = 244 ∧ 143 < c1)) →
        appendJsonChars (c :: c1 :: t) =
          (127 :: (appendJsonChars (c1 :: t)).1, (appendJsonChars (c1 :: t)).2)) ∧
    (∀ (c c1 c2 : Nat) (t : List Nat), 224 ≤ c → c ≤ 244 → 128 ≤ c1 → c1 ≤ 191 →
        ¬((c = 224 ∧ c1 < 160) ∨ (c = 237 ∧ 159 < c1) ∨
          (c = 240 ∧ c1 < 144) ∨ (c = 244 ∧ 143 < c1)) →
        (c2 < 128 ∨ 191 < c2) →
        appendJsonChars (c :: c1 :: c2 :: t) =
          (127 :: (appendJsonChars (c1 :: c2 :: t)).1,
            (appendJsonChars (c1 :: c2 :: t)).2)) ∧
    (∀ (c c1 c2 c3 : Nat) (t : List Nat), 240 ≤ c → c ≤ 244 → 128 ≤ c1 → c1 ≤ 191 →
        ¬((c = 224 ∧ c1 < 160) ∨ (c = 237 ∧ 159 < c1) ∨
          (c = 240 ∧ c1 < 144) ∨ (c = 244 ∧ 143 < c1)) →
        128 ≤ c2 → c2 ≤ 191 → (c3 < 128 ∨ 191 < c3) →
        appendJsonChars (c :: c1 :: c2 :: c3 :: t) =
          (127 :: (appendJsonChars (c1 :: c2 :: c3 :: t)).1,
            (appendJsonChars (c1 :: c2 :: c3 :: t)).2)) :=
  ⟨fun xs => aj_main xs.length xs le_rfl, aj_pass, aj_nul, aj_badlead,
   aj_badcont1, aj_overlong, aj_badcont2, aj_badcont3⟩

/-- Witness for C8 at concrete inputs: a valid sequence passes through, and
each invalid-byte clause fires with a single 0x7F. -/
theorem c8_append_json_chars_witness :
    appendJsonChars [104, 226, 130, 172] = ([104, 226, 130, 172], []) ∧
    appendJsonChars [130, 65] = ([127, 65], []) ∧
    appendJsonChars [194, 65] = ([127, 65], []) ∧
    appendJsonChars [224, 130, 65] = ([127, 127, 65], []) ∧
    appendJsonChars [226, 130, 65, 66] = ([127, 127, 65, 66], []) ∧
    appendJsonChars [240, 144, 130, 65] = ([127, 127, 127, 65], []) := by
  refine ⟨?_, ?_, ?_, ?_, ?_, ?_⟩
  · exact c8_append_json_chars.2.1 [104, 226, 130, 172]
      (JsonScalars.ascii 104 _ (by omega) (by omega) (by omega) (by omega)
        (JsonScalars.three 226 130 172 [] (by omega) (by omega) (by omega) (by omega)
          (by omega) (by omega) (by omega) (by omega) JsonScalars.nil))
  · rw [c8_append_json_chars.2.2.2.1 130 [65] (by omega) (by omega)]
    simp [appendJsonChars]
  · rw [c8_append_json_chars.2.2.2.2.1 194 65 [] (by omega) (by omega) (by omega)]
    simp [appendJsonChars]
  · rw [c8_append_json_chars.2.2.2.2.2.1 224 130 [65] (by omega) (by omega) (by omega)
      (by omega) (by omega)]
    simp [appendJsonChars]
  · rw [c8_append_json_chars.2.2.2.2.2.2.1 226 130 65 [66] (by omega) (by omega)
      (by omega) (by omega) (by omega) (by omega)]
    simp [appendJsonChars]
  · rw [c8_append_json_chars.2.2.2.2.2.2.2 240 144 130 65 [] (by omega) (by omega)
      (by omega) (by omega) (by omega) (by omega) (by omega) (by omega)]
    simp [appendJsonChars]

/-! ### C9 helpers: jbuffer invariant preservation -/

theorem growCap_ge : ∀ (k tn ncap : Nat), tn - ncap ≤ k → 0 < ncap →
    tn ≤ growCap tn ncap ∧ ncap ≤ growCap tn ncap := by
  intro k
  induction k with
  | zero =>
    intro tn ncap hk hpos
    have hle : tn ≤ ncap := by omega
    rw [growCap.eq_def, if_pos hle]
    exact ⟨hle, le_rfl⟩
  | succ k ih =>
    intro tn ncap hk hpos
    by_cases hle : tn ≤ ncap
    · rw [growCap.eq_def, if_pos hle]
      exact ⟨hle, le_rfl⟩
    · have hne : ¬ ncap = 0 := by omega
      rw [growCap.eq_def, if_neg hle, if_neg hne]
      have hrec := ih tn (min (2 * ncap) (ncap + 131072)) (by omega) (by omega)
      omega

theorem growCap_ge' (tn ncap : Nat) (h : 0 < ncap) :
    tn ≤ growCap tn ncap ∧ ncap ≤ growCap tn ncap :=
  growCap_ge (tn - ncap) tn ncap le_rfl h

theorem take_append_exact (A B : List Nat) (n : Nat) (h : A.length = n) :
    (A ++ B).take n = A := by
  subst h
  simp [List.take_append]

theorem reserve_spec (b : JBuf) (n : Nat) (h : JBufWF b) :
    (reserve b n).head = b.head ∧ (reserve b n).tail = b.tail ∧
      (reserve b n).bufpos = b.bufpos ∧ (reserve b n).rclosed = b.rclosed ∧
      (reserve b n).wclosed = b.wclosed ∧
      b.cap ≤ (reserve b n).cap ∧
      b.tail + (if n = 0 then min b.cap 131072 else n) ≤ (reserve b n).cap ∧
      (reserve b n).buf.length = (reserve b n).cap := by
  obtain ⟨h1, h2, h3, h4⟩ := h
  have hg := growCap_ge' (b.tail + (if n = 0 then min b.cap 131072 else n)) b.cap h4
  have h5 : b.tail ≤ growCap (b.tail + (if n = 0 then min b.cap 131072 else n)) b.cap :=
    le_trans (Nat.le_add_right _ _) hg.1
  refine ⟨rfl, rfl, rfl, rfl, rfl, hg.2, hg.1, ?_⟩
  simp only [reserve, List.length_append, List.length_take, List.length_replicate]
  omega

theorem appendByte_wf (b : JBuf) (c : Nat) (h : JBufWF b) : JBufWF (appendByte b c) := by
  obtain ⟨h1, h2, h3, h4⟩ := h
  simp only [appendByte]
  by_cases hf : b.tail = b.cap
  · rw [if_pos hf]
    obtain ⟨e1, e2, e3, e4, e5, e6, e7, e8⟩ := reserve_spec b 0 ⟨h1, h2, h3, h4⟩
    have e7' : b.tail + min b.cap 131072 ≤ (reserve b 0).cap := by simpa using e7
    simp only [JBufWF, List.length_append, List.length_take, List.length_drop,
      List.length_singleton]
    omega
  · rw [if_neg hf]
    simp only [JBufWF, List.length_append, List.length_take, List.length_drop,
      List.length_singleton]
    omega

theorem appendRange_wf (b : JBuf) (bs : List Nat) (h : JBufWF b) :
    JBufWF (appendRange b bs) := by
  obtain ⟨h1, h2, h3, h4⟩ := h
  simp only [appendRange]
  by_cases hf : b.cap - b.tail < bs.length
  · rw [if_pos hf]
    obtain ⟨e1, e2, e3, e4, e5, e6, e7, e8⟩ := reserve_spec b bs.length ⟨h1, h2, h3, h4⟩
    have hn0 : ¬ bs.length = 0 := by omega
    rw [if_neg hn0] at e7
    simp only [JBufWF, List.length_append, List.length_take, List.length_drop]
    omega
  · rw [if_neg hf]
    simp only [JBufWF, List.length_append, List.length_take, List.length_drop]
    omega

theorem jread_wf (b : JBuf) (fromFd : Int) (ev : ReadEv) (h : JBufWF b)
    (hok : JOpOK b (JOp.read fromFd ev)) : JBufWF (jread b fromFd ev) := by
  obtain ⟨h1, h2, h3, h4⟩ := h
  cases ev with
  | data bs =>
    obtain ⟨hk1, hk2⟩ := hok
    simp only [jread]
    by_cases hc : 0 ≤ fromFd ∧ ¬b.rclosed = true ∧ b.tail ≠ b.cap
    · rw [if_pos hc]
      simp only [JBufWF, List.length_append, List.length_take, List.length_drop]
      omega
    · rw [if_neg hc]
      exact ⟨h1, h2, h3, h4⟩
  | eof =>
    simp only [jread]
    split_ifs <;> exact ⟨h1, h2, h3, h4⟩
  | err e =>
    simp only [jread]
    split_ifs <;> exact ⟨h1, h2, h3, h4⟩
  | retry =>
    simp only [jread]
    split_ifs <;> exact ⟨h1, h2, h3, h4⟩

theorem jwrite_wf (b : JBuf) (toFd : Int) (off : Nat) (ev : WriteEv) (h : JBufWF b) :
    JBufWF (jwrite b toFd off ev).1 := by
  obtain ⟨h1, h2, h3, h4⟩ := h
  cases ev <;> simp only [jwrite] <;> split_ifs <;> exact ⟨h1, h2, h3, h4⟩

theorem consume_to_wf (b : JBuf) (off : Nat) (h : JBufWF b)
    (ho1 : b.bufpos + b.head ≤ off) (ho2 : off ≤ b.bufpos + b.tail) :
    JBufWF (consume_to b off) := by
  obtain ⟨h1, h2, h3, h4⟩ := h
  simp only [consume_to]
  by_cases hcmp : 3 * b.cap / 4 ≤ b.tail
  · rw [if_pos hcmp]
    simp only [JBufWF, List.length_append, List.length_take, List.length_drop]
    omega
  · rw [if_neg hcmp]
    simp only [JBufWF]
    omega

theorem jstep_wf (b : JBuf) (op : JOp) (h : JBufWF b) (hok : JOpOK b op) :
    JBufWF (jstep b op) := by
  cases op with
  | appendB c => exact appendByte_wf b c h
  | appendR bs => exact appendRange_wf b bs h
  | read f ev => exact jread_wf b f ev h hok
  | write t off ev => exact jwrite_wf b t off ev h
  | consume off => exact consume_to_wf b off h hok.1 hok.2

theorem ValidSeq_append_left : ∀ (pre suf : List JOp) (b : JBuf),
    ValidSeq b (pre ++ suf) → ValidSeq b pre := by
  intro pre
  induction pre with
  | nil => intro suf b _; trivial
  | cons op ops ih =>
    intro suf b h
    simp only [List.cons_append, ValidSeq] at h
    exact ⟨h.1, ih suf (jstep b op) h.2⟩

theorem jrun_wf : ∀ (ops : List JOp) (b : JBuf), JBufWF b → ValidSeq b ops →
    JBufWF (jrun b ops) := by
  intro ops
  induction ops with
  | nil => intro b h _; exact h
  | cons op ops ih =>
    intro b h hv
    simp only [ValidSeq] at hv
    simp only [jrun, List.foldl_cons]
    exact ih (jstep b op) (jstep_wf b op h hv.1) hv.2

theorem consume_to_spec (b : JBuf) (off : Nat) (h : JBufWF b)
    (ho1 : b.bufpos + b.head ≤ off) (ho2 : off ≤ b.bufpos + b.tail) :
    (consume_to b off).bufpos + (consume_to b off).head = off ∧
    (consume_to b off).bufpos + (consume_to b off).tail = b.bufpos + b.tail ∧
    ((consume_to b off).buf.drop (consume_to b off).head).take
        ((consume_to b off).tail - (consume_to b off).head) =
      (b.buf.drop (off - b.bufpos)).take (b.tail - (off - b.bufpos)) ∧
    (¬ 3 * b.cap / 4 ≤ b.tail → consume_to b off = { b with head := off - b.bufpos }) ∧
    (3 * b.cap / 4 ≤ b.tail → (consume_to b off).head = 0 ∧
        (consume_to b off).bufpos = off ∧
        (consume_to b off).tail = b.tail - (off - b.bufpos)) := by
  obtain ⟨h1, h2, h3, h4⟩ := h
  simp only [consume_to]
  by_cases hcmp : 3 * b.cap / 4 ≤ b.tail
  · rw [if_pos hcmp]
    refine ⟨?_, ?_, ?_, fun hn => absurd hcmp hn, fun _ => ⟨rfl, ?_, rfl⟩⟩
    · show b.bufpos + (off - b.bufpos) + 0 = off
      omega
    · show b.bufpos + (off - b.bufpos) + (b.tail - (off - b.bufpos)) = b.bufpos + b.tail
      omega
    · simp only [List.drop_zero]
      exact take_append_exact _ _ _ (by
        simp only [List.length_take, List.length_drop]
        omega)
    · show b.bufpos + (off - b.bufpos) = off
      omega
  · rw [if_neg hcmp]
    refine ⟨?_, ?_, rfl, fun _ => rfl, fun hc => absurd hc hcmp⟩
    · show b.bufpos + (off - b.bufpos) = off
      omega
    · show b.bufpos + b.tail = b.bufpos + b.tail
      rfl

/-- C9: for every operation sequence whose `write`/`consume_to` offsets lie in
`[bufpos+head, bufpos+tail]`, the invariant `head ≤ tail ≤ cap` (with the
storage holding `cap` cells) holds after every prefix of the sequence;
`consume_to` compacts exactly when `tail ≥ 3·cap/4`, and in either case the
absolute positions `bufpos+head` / `bufpos+tail` and the bytes they delimit
are unchanged.  -/
theorem c9_jbuffer_invariant :
    (∀ (b : JBuf) (op : JOp), JBufWF b → JOpOK b op → JBufWF (jstep b op)) ∧
    (∀ (b : JBuf) (ops pre suf : List JOp), JBufWF b → ValidSeq b ops →
        ops = pre ++ suf → JBufWF (jrun b pre)) ∧
    (∀ (b : JBuf) (off : Nat), JBufWF b → b.bufpos + b.head ≤ off →
        off ≤ b.bufpos + b.tail →
        (consume_to b off).bufpos + (consume_to b off).head = off ∧
        (consume_to b off).bufpos + (consume_to b off).tail = b.bufpos + b.tail ∧
        ((consume_to b off).buf.drop (consume_to b off).head).take
            ((consume_to b off).tail - (consume_to b off).head) =
          (b.buf.drop (off - b.bufpos)).take (b.tail - (off - b.bufpos)) ∧
        (¬ 3 * b.cap / 4 ≤ b.tail →
            consume_to b off = { b with head := off - b.bufpos }) ∧
        (3 * b.cap / 4 ≤ b.tail → (consume_to b off).head = 0 ∧
            (consume_to b off).bufpos = off ∧
            (consume_to b off).tail = b.tail - (off - b.bufpos))) := by
  refine ⟨jstep_wf, ?_, consume_to_spec⟩
  intro b ops pre suf hwf hv heq
  subst heq
  exact jrun_wf pre b hwf (ValidSeq_append_left pre suf b hv)

/-- Witness for C9: a concrete run (append two bytes, consume one, read one,
write one) stays well-formed, and a concrete compacting `consume_to`
preserves the absolute head position. -/
theorem c9_jbuffer_invariant_witness :
    JBufWF (jrun ⟨[0, 0, 0, 0], 0, 0, 4, 0, false, false, 0⟩
      [JOp.appendB 65, JOp.appendB 66, JOp.consume 1,
       JOp.read 0 (ReadEv.data [67]), JOp.write 1 2 (WriteEv.wrote 1)]) ∧
    (consume_to ⟨[65, 66, 67, 0], 1, 3, 4, 0, false, false, 0⟩ 2).bufpos +
        (consume_to ⟨[65, 66, 67, 0], 1, 3, 4, 0, false, false, 0⟩ 2).head = 2 := by
  constructor
  · exact c9_jbuffer_invariant.2.1 ⟨[0, 0, 0, 0], 0, 0, 4, 0, false, false, 0⟩
      [JOp.appendB 65, JOp.appendB 66, JOp.consume 1,
       JOp.read 0 (ReadEv.data [67]), JOp.write 1 2 (WriteEv.wrote 1)]
      [JOp.appendB 65, JOp.appendB 66, JOp.consume 1,
       JOp.read 0 (ReadEv.data [67]), JOp.write 1 2 (WriteEv.wrote 1)]
      []
      (by simp [JBufWF])
      (by simp [ValidSeq, JOpOK, jstep, appendByte, appendRange, jread, jwrite,
        consume_to, reserve])
      (by simp)
  · exact (c9_jbuffer_invariant.2.2 ⟨[65, 66, 67, 0], 1, 3, 4, 0, false, false, 0⟩ 2
      (by simp [JBufWF]) (by simp) (by simp)).1

/-! ### C5 helpers: one-step evaluation of the `check_filename` loop -/

theorem cf_nil (ib : Bool) (p : Nat) (out : List Nat) : cfLoop [] ib p out = some out := by
  rw [cfLoop.eq_def]

theorem cf_step (c : Nat) (rest : List Nat) (ib : Bool) (p : Nat) (out : List Nat)
    (h1 : ¬(c = 46 ∧ (rest.headD 0 = 47 ∨ rest.headD 0 = 0) ∧ ¬ib = true ∧ p = 47))
    (h2 : ¬(c = 46 ∧ rest.headD 0 = 46 ∧ (rest.tail.headD 0 = 47 ∨ rest.tail.headD 0 = 0) ∧
      (ib = true ∨ p = 47))) :
    cfLoop (c :: rest) ib p out =
      cfLoop (if c = 47 then rest.dropWhile (· = 47) else rest) false c (out ++ [c]) := by
  rw [cfLoop.eq_def]
  simp only []
  rw [if_neg h1, if_neg h2]

theorem cf_dot_end (out : List Nat) : cfLoop [46] false 47 out = some out := by
  rw [cfLoop.eq_def]
  simp

theorem cf_dot_cont (r0 : Nat) (rtail out : List Nat) (hr : r0 = 47 ∨ r0 = 0) :
    cfLoop (46 :: r0 :: rtail) false 47 out = cfLoop (rtail.dropWhile (· = 47)) false 47 out := by
  rw [cfLoop.eq_def]
  rcases hr with hr | hr <;> subst hr <;> simp

theorem cf_dotdot (r2 : List Nat) (ib : Bool) (p : Nat) (out : List Nat)
    (h3 : r2.headD 0 = 47 ∨ r2.headD 0 = 0) (hbp : ib = true ∨ p = 47) :
    cfLoop (46 :: 46 :: r2) ib p out = none := by
  rw [cfLoop.eq_def]
  simp only [List.headD_eq_head?] at h3
  rcases h3 with h3 | h3 <;> rcases hbp with hbp | hbp <;> simp [h3, hbp]

theorem takeWhile_comp (comp rest2 : List Nat) (h : 47 ∉ comp) :
    (comp ++ 47 :: rest2).takeWhile (· ≠ 47) = comp := by
  induction comp with
  | nil =>
    rw [List.nil_append, List.takeWhile_cons_of_neg (by decide)]
  | cons c ct ih =>
    have hc : c ≠ 47 := fun hh => h (hh ▸ List.mem_cons_self c ct)
    rw [List.cons_append, List.takeWhile_cons_of_pos (by simp [hc]),
      ih (fun hm => h (List.mem_cons_of_mem c hm))]

theorem takeWhile_self_of (comp : List Nat) (h : 47 ∉ comp) :
    comp.takeWhile (· ≠ 47) = comp := by
  induction comp with
  | nil => simp
  | cons c ct ih =>
    have hc : c ≠ 47 := fun hh => h (hh ▸ List.mem_cons_self c ct)
    rw [List.takeWhile_cons_of_pos (by simp [hc]),
      ih (fun hm => h (List.mem_cons_of_mem c hm))]

/-- Interior of a component: with the previous byte not a slash, the loop
copies bytes verbatim, no collapse rule can fire. -/
theorem cfLoop_copy_inner : ∀ (crem rest : List Nat) (p : Nat) (out : List Nat),
    47 ∉ crem → p ≠ 47 →
    cfLoop (crem ++ rest) false p out = cfLoop rest false (crem.getLastD p) (out ++ crem) := by
  intro crem
  induction crem with
  | nil =>
    intro rest p out _ _
    simp
  | cons c ct ih =>
    intro rest p out h47 hp
    have hc47 : c ≠ 47 := fun hh => h47 (hh ▸ List.mem_cons_self c ct)
    have hct47 : 47 ∉ ct := fun hm => h47 (List.mem_cons_of_mem c hm)
    rw [List.cons_append, cf_step c (ct ++ rest) false p out
      (by rintro ⟨-, -, -, hpp⟩; exact hp hpp)
      (by rintro ⟨-, -, -, hor⟩; rcases hor with h | h
          · simp at h
          · exact hp h),
      if_neg hc47, ih rest c (out ++ [c]) hct47 hc47]
    rw [List.getLastD_cons, List.append_assoc, List.singleton_append]

/-- First byte of a component that is neither `.` nor `..`: no collapse rule
fires whatever the incoming state, and the whole component is copied. -/
theorem cfLoop_copy_comp (c : Nat) (ct rest : List Nat) (ib : Bool) (p : Nat) (out : List Nat)
    (h47 : 47 ∉ c :: ct) (h0 : 0 ∉ c :: ct)
    (hne1 : c :: ct ≠ [46]) (hne2 : c :: ct ≠ [46, 46]) :
    cfLoop ((c :: ct) ++ rest) ib p out =
      cfLoop rest false ((c :: ct).getLastD p) (out ++ (c :: ct)) := by
  have hc47 : c ≠ 47 := fun hh => h47 (hh ▸ List.mem_cons_self c ct)
  have hct47 : 47 ∉ ct := fun hm => h47 (List.mem_cons_of_mem c hm)
  rw [List.cons_append, cf_step c (ct ++ rest) ib p out ?h1 ?h2, if_neg hc47,
    cfLoop_copy_inner ct rest c (out ++ [c]) hct47 hc47]
  · rw [List.getLastD_cons, List.append_assoc, List.singleton_append]
  case h1 =>
    rintro ⟨hc, hla, -, -⟩
    rcases ct with _ | ⟨d, dt⟩
    · exact hne1 (by rw [hc])
    · simp only [List.cons_append, List.headD_cons] at hla
      rcases hla with h | h
      · exact h47 (h ▸ List.mem_cons_of_mem c (List.mem_cons_self d dt))
      · exact h0 (h ▸ List.mem_cons_of_mem c (List.mem_cons_self d dt))
  case h2 =>
    rintro ⟨hc, hn, hth, -⟩
    rcases ct with _ | ⟨d, dt⟩
    · exact hne1 (by rw [hc])
    · simp only [List.cons_append, List.headD_cons] at hn
      rcases dt with _ | ⟨e, et⟩
      · exact hne2 (by rw [hc, hn])
      · simp only [List.cons_append, List.tail_cons, List.headD_cons] at hth
        rcases hth with h | h
        · exact h47 (h ▸ List.mem_cons_of_mem c
            (List.mem_cons_of_mem d (List.mem_cons_self e et)))
        · exact h0 (h ▸ List.mem_cons_of_mem c
            (List.mem_cons_of_mem d (List.mem_cons_self e et)))

/-- First byte of the first component (`s == name.c_str()`): the single-dot
rule cannot fire, and the double-dot rule fires only for a `..` component. -/
theorem cfLoop_copy_begin (c : Nat) (ct rest : List Nat) (out : List Nat)
    (h47 : 47 ∉ c :: ct) (h0 : 0 ∉ c :: ct) (hne2 : c :: ct ≠ [46, 46])
    (hrest : rest = [] ∨ rest.headD 0 = 47) :
    cfLoop ((c :: ct) ++ rest) true 0 out =
      cfLoop rest false ((c :: ct).getLastD 0) (out ++ (c :: ct)) := by
  have hc47 : c ≠ 47 := fun hh => h47 (hh ▸ List.mem_cons_self c ct)
  have hct47 : 47 ∉ ct := fun hm => h47 (List.mem_cons_of_mem c hm)
  rw [List.cons_append, cf_step c (ct ++ rest) true 0 out
      (by rintro ⟨-, -, hib, -⟩; exact hib rfl) ?h2, if_neg hc47,
    cfLoop_copy_inner ct rest c (out ++ [c]) hct47 hc47]
  · rw [List.getLastD_cons, List.append_assoc, List.singleton_append]
  case h2 =>
    rintro ⟨hc, hn, hth, -⟩
    rcases ct with _ | ⟨d, dt⟩
    · simp only [List.nil_append] at hn
      rcases hrest with h | h
      · subst h
        simp at hn
      · rw [List.headD_eq_head?] at h hn
        omega
    · simp only [List.cons_append, List.headD_cons] at hn
      rcases dt with _ | ⟨e, et⟩
      · exact hne2 (by rw [hc, hn])
      · simp only [List.cons_append, List.tail_cons, List.headD_cons] at hth
        rcases hth with h | h
        · exact h47 (h ▸ List.mem_cons_of_mem c
            (List.mem_cons_of_mem d (List.mem_cons_self e et)))
        · exact h0 (h ▸ List.mem_cons_of_mem c
            (List.mem_cons_of_mem d (List.mem_cons_self e et)))

theorem scs_nil : specCS [] = some [] := by
  rw [specCS.eq_def]
  simp

theorem scs_dot_nil : specCS [46] = some [] := by
  rw [specCS.eq_def]
  simp only []
  split
  · simp
  · next head r2 heq => simp at heq

theorem scs_dot_cont (rest2 : List Nat) :
    specCS (46 :: 47 :: rest2) = specCS (rest2.dropWhile (· = 47)) := by
  rw [specCS.eq_def]
  simp only []
  split
  · next heq => simp at heq
  · next head r2 heq =>
    simp at heq
    obtain ⟨h1, h2⟩ := heq
    subst h2
    simp

theorem scs_dotdot (rem : List Nat) (h : rem.takeWhile (· ≠ 47) = [46, 46]) :
    specCS rem = none := by
  rw [specCS.eq_def]
  simp only [h]
  split <;> simp

theorem scs_comp_end (comp : List Nat) (h47 : 47 ∉ comp)
    (hc1 : comp ≠ [46]) (hc2 : comp ≠ [46, 46]) : specCS comp = some comp := by
  rw [specCS.eq_def]
  simp only []
  split
  · simp only [takeWhile_self_of comp h47]
    rw [if_neg hc2, if_neg hc1]
  · next head r2 heq =>
    rw [takeWhile_self_of comp h47, List.drop_length] at heq
    simp at heq

theorem scs_comp_mid (comp rest2 : List Nat) (h47 : 47 ∉ comp)
    (hc1 : comp ≠ [46]) (hc2 : comp ≠ [46, 46]) :
    specCS (comp ++ 47 :: rest2) =
      (specCS (rest2.dropWhile (· = 47))).map (fun t => comp ++ 47 :: t) := by
  rw [specCS.eq_def]
  simp only []
  split
  · next heq =>
    rw [takeWhile_comp comp rest2 h47, List.drop_left] at heq
    simp at heq
  · next head r2 heq =>
    rw [takeWhile_comp comp rest2 h47, List.drop_left] at heq
    injection heq with h1 h2
    subst h2
    simp only [takeWhile_comp comp rest2 h47]
    rw [if_neg hc2, if_neg hc1]

/-- At the start of a non-first, non-dot component the loop agrees with the
component normalization `specCS` (given the result for shorter inputs). -/
theorem cfLoop_specCS_gen (rem : List Nat) (h0 : 0 ∉ rem)
    (hne : rem.takeWhile (· ≠ 47) ≠ [])
    (hc1 : rem.takeWhile (· ≠ 47) ≠ [46])
    (hc2 : rem.takeWhile (· ≠ 47) ≠ [46, 46])
    (ih : ∀ rem2 : List Nat, rem2.length < rem.length → 0 ∉ rem2 → ∀ out2 : List Nat,
      cfLoop rem2 false 47 out2 = (specCS rem2).map (out2 ++ ·))
    (out : List Nat) :
    cfLoop rem false 47 out = (specCS rem).map (out ++ ·) := by
  obtain ⟨c, ct, hcc⟩ : ∃ c ct, rem.takeWhile (· ≠ 47) = c :: ct := by
    rcases h : rem.takeWhile (· ≠ 47) with _ | ⟨c, ct⟩
    · exact absurd h hne
    · exact ⟨c, ct, h⟩
  rw [hcc] at hc1 hc2
  have h47comp : 47 ∉ c :: ct := by
    rw [← hcc]
    intro hm
    have := List.mem_takeWhile_imp hm
    simp at this
  have h0comp : 0 ∉ c :: ct := by
    rw [← hcc]
    exact fun hm => h0 ((List.takeWhile_sublist _).subset hm)
  have hsplit := List.takeWhile_append_dropWhile (p := fun x => decide (x ≠ 47)) (l := rem)
  rcases hdd : rem.dropWhile (· ≠ 47) with _ | ⟨d, rest2⟩
  · have hrem : rem = c :: ct := by
      rw [← hsplit, hcc, hdd, List.append_nil]
    have hcopy := cfLoop_copy_comp c ct [] false 47 out h47comp h0comp hc1 hc2
    rw [List.append_nil] at hcopy
    rw [hrem, hcopy, cf_nil, scs_comp_end (c :: ct) h47comp hc1 hc2]
    simp
  · have hne' : rem.dropWhile (· ≠ 47) ≠ [] := by
      rw [hdd]
      simp
    have hd47 : d = 47 := by
      have hh := List.head_dropWhile_not (fun x => decide (x ≠ 47)) rem hne'
      have hdeq : (rem.dropWhile (· ≠ 47)).head hne' = d := by
        have h1 : (rem.dropWhile (· ≠ 47)).head? = some d := by rw [hdd]; rfl
        rw [List.head?_eq_head hne'] at h1
        exact Option.some.inj h1
      rw [hdeq] at hh
      simpa using hh
    subst hd47
    have hrem : rem = (c :: ct) ++ 47 :: rest2 := by
      rw [← hsplit, hcc, hdd]
    have hlen2 : (rest2.dropWhile (· = 47)).length < rem.length := by
      have hs := (List.dropWhile_sublist (l := rest2) (· = 47)).length_le
      rw [hrem]
      simp only [List.length_append, List.length_cons]
      omega
    have h0rest2 : 0 ∉ rest2.dropWhile (· = 47) := by
      intro hm
      apply h0
      rw [hrem]
      exact List.mem_append_right _
        (List.mem_cons_of_mem _ ((List.dropWhile_sublist _).subset hm))
    rw [hrem, cfLoop_copy_comp c ct (47 :: rest2) false 47 out h47comp h0comp hc1 hc2,
      cf_step 47 rest2 false ((c :: ct).getLastD 47) (out ++ (c :: ct))
        (by rintro ⟨hh, -⟩; exact absurd hh (by decide))
        (by rintro ⟨hh, -⟩; exact absurd hh (by decide)),
      if_pos rfl,
      ih (rest2.dropWhile (· = 47)) hlen2 h0rest2 ((out ++ (c :: ct)) ++ [47]),
      scs_comp_mid (c :: ct) rest2 h47comp hc1 hc2]
    cases specCS (rest2.dropWhile (· = 47)) <;> simp

/-- Component-start agreement: from the state right after a copied slash, the
loop computes the component normalization `specCS`. -/
theorem cfLoop_specCS : ∀ (n : Nat) (rem : List Nat), rem.length ≤ n → 0 ∉ rem →
    ∀ out, cfLoop rem false 47 out = (specCS rem).map (out ++ ·) := by
  intro n
  induction n with
  | zero =>
    intro rem hlen h0 out
    have hx : rem = [] := List.eq_nil_of_length_eq_zero (Nat.le_zero.mp hlen)
    subst hx
    rw [cf_nil, scs_nil]
    simp
  | succ n ih =>
    intro rem hlen h0 out
    have IH : ∀ rem2 : List Nat, rem2.length < rem.length → 0 ∉ rem2 →
        ∀ out2 : List Nat, cfLoop rem2 false 47 out2 = (specCS rem2).map (out2 ++ ·) := by
      intro rem2 hl h02 out2
      exact ih rem2 (by omega) h02 out2
    rcases rem with _ | ⟨c, rest⟩
    · rw [cf_nil, scs_nil]
      simp
    · by_cases hc47 : c = 47
      · subst hc47
        rw [cf_step 47 rest false 47 out
            (by rintro ⟨hh, -⟩; exact absurd hh (by decide))
            (by rintro ⟨hh, -⟩; exact absurd hh (by decide)),
          if_pos rfl]
        have h0r : 0 ∉ rest.dropWhile (· = 47) := by
          intro hm
          exact h0 (List.mem_cons_of_mem _ ((List.dropWhile_sublist _).subset hm))
        have hlr : (rest.dropWhile (· = 47)).length < (47 :: rest).length := by
          have := (List.dropWhile_sublist (l := rest) (· = 47)).length_le
          simp only [List.length_cons]
          omega
        rw [IH (rest.dropWhile (· = 47)) hlr h0r (out ++ [47]),
          show (47 :: rest : List Nat) = [] ++ 47 :: rest from rfl,
          scs_comp_mid [] rest (by simp) (by simp) (by simp)]
        cases specCS (rest.dropWhile (· = 47)) <;> simp
      · by_cases hcdot : c = 46
        · subst hcdot
          rcases rest with _ | ⟨r0, rtail⟩
          · rw [cf_dot_end, scs_dot_nil]
            simp
          · by_cases hr0 : r0 = 47
            · subst hr0
              have h0r : 0 ∉ rtail.dropWhile (· = 47) := by
                intro hm
                exact h0 (List.mem_cons_of_mem _ (List.mem_cons_of_mem _
                  ((List.dropWhile_sublist _).subset hm)))
              have hlr : (rtail.dropWhile (· = 47)).length < (46 :: 47 :: rtail).length := by
                have := (List.dropWhile_sublist (l := rtail) (· = 47)).length_le
                simp only [List.length_cons]
                omega
              rw [cf_dot_cont 47 rtail out (Or.inl rfl), scs_dot_cont rtail,
                IH (rtail.dropWhile (· = 47)) hlr h0r out]
            · by_cases hr0d : r0 = 46
              · subst hr0d
                rcases rtail with _ | ⟨r1, rt2⟩
                · rw [cf_dotdot [] false 47 out (Or.inr rfl) (Or.inr rfl),
                    scs_dotdot [46, 46] (by decide)]
                  simp
                · by_cases hr1 : r1 = 47
                  · subst hr1
                    rw [cf_dotdot (47 :: rt2) false 47 out (Or.inl rfl) (Or.inr rfl),
                      scs_dotdot (46 :: 46 :: 47 :: rt2) (by
                        rw [List.takeWhile_cons_of_pos (by decide),
                          List.takeWhile_cons_of_pos (by decide),
                          List.takeWhile_cons_of_neg (by decide)])]
                    simp
                  · have ht : (46 :: 46 :: r1 :: rt2).takeWhile (· ≠ 47) =
                        46 :: 46 :: r1 :: rt2.takeWhile (· ≠ 47) := by
                      rw [List.takeWhile_cons_of_pos (by decide),
                        List.takeWhile_cons_of_pos (by decide),
                        List.takeWhile_cons_of_pos (by simp [hr1])]
                    exact cfLoop_specCS_gen (46 :: 46 :: r1 :: rt2) h0
                      (by rw [ht]; simp) (by rw [ht]; simp) (by rw [ht]; simp) IH out
              · have ht : (46 :: r0 :: rtail).takeWhile (· ≠ 47) =
                    46 :: r0 :: rtail.takeWhile (· ≠ 47) := by
                  rw [List.takeWhile_cons_of_pos (by decide),
                    List.takeWhile_cons_of_pos (by simp [hr0])]
                exact cfLoop_specCS_gen (46 :: r0 :: rtail) h0
                  (by rw [ht]; simp) (by rw [ht]; simp)
                  (by rw [ht]; simp [hr0d]) IH out
        · have ht : (c :: rest).takeWhile (· ≠ 47) = c :: rest.takeWhile (· ≠ 47) := by
            rw [List.takeWhile_cons_of_pos (by simp [hc47])]
          exact cfLoop_specCS_gen (c :: rest) h0
            (by rw [ht]; simp) (by rw [ht]; simp [hcdot])
            (by rw [ht]; simp [hcdot]) IH out

theorem sb_end (comp : List Nat) (h47 : 47 ∉ comp) (hne2 : comp ≠ [46, 46]) :
    specBegin comp = some comp := by
  simp only [specBegin, takeWhile_self_of comp h47, List.drop_length]
  rw [if_neg hne2]

theorem sb_mid (comp rest2 : List Nat) (h47 : 47 ∉ comp) (hne2 : comp ≠ [46, 46]) :
    specBegin (comp ++ 47 :: rest2) =
      (specCS (rest2.dropWhile (· = 47))).map (fun t => comp ++ 47 :: t) := by
  simp only [specBegin, takeWhile_comp comp rest2 h47, List.drop_left]
  rw [if_neg hne2]

theorem sb_dotdot (name : List Nat) (h : name.takeWhile (· ≠ 47) = [46, 46]) :
    specBegin name = none := by
  simp only [specBegin, h]
  split <;> simp

/-- The whole copying loop from its initial state computes the component
normalization `specBegin`. -/
theorem cfLoop_specBegin (name : List Nat) (h0 : 0 ∉ name) :
    cfLoop name true 0 [] = specBegin name := by
  rcases name with _ | ⟨c, rest⟩
  · rw [cf_nil, sb_end [] (by simp) (by simp)]
  · by_cases hc47 : c = 47
    · subst hc47
      rw [cf_step 47 rest true 0 []
          (by rintro ⟨hh, -⟩; exact absurd hh (by decide))
          (by rintro ⟨hh, -⟩; exact absurd hh (by decide)),
        if_pos rfl]
      have h0r : 0 ∉ rest.dropWhile (· = 47) := by
        intro hm
        exact h0 (List.mem_cons_of_mem _ ((List.dropWhile_sublist _).subset hm))
      rw [cfLoop_specCS (rest.dropWhile (· = 47)).length _ le_rfl h0r ([] ++ [47]),
        show (47 :: rest : List Nat) = [] ++ 47 :: rest from rfl,
        sb_mid [] rest (by simp) (by simp)]
      cases specCS (rest.dropWhile (· = 47)) <;> simp
    · have ht : (c :: rest).takeWhile (· ≠ 47) = c :: rest.takeWhile (· ≠ 47) :=
        List.takeWhile_cons_of_pos (by simp [hc47])
      by_cases hdd2 : (c :: rest).takeWhile (· ≠ 47) = [46, 46]
      · -- leading `..` component: both sides reject
        have hdd2' := hdd2
        rw [ht] at hdd2'
        injection hdd2' with hc hrest2
        subst hc
        rcases rest with _ | ⟨r0, rt⟩
        · simp at hrest2
        · by_cases hr0 : r0 = 47
          · rw [List.takeWhile_cons_of_neg (by simp [hr0])] at hrest2
            simp at hrest2
          · rw [List.takeWhile_cons_of_pos (by simp [hr0])] at hrest2
            injection hrest2 with hr06 htw
            subst hr06
            have h3 : rt.headD 0 = 47 ∨ rt.headD 0 = 0 := by
              rcases rt with _ | ⟨x, xs⟩
              · exact Or.inr rfl
              · by_cases hx : x = 47
                · exact Or.inl (by simp [hx])
                · rw [List.takeWhile_cons_of_pos (by simp [hx])] at htw
                  simp at htw
            rw [cf_dotdot rt true 0 [] h3 (Or.inl rfl), sb_dotdot _ hdd2]
      · -- ordinary first component, copied verbatim
        have h47comp : 47 ∉ c :: rest.takeWhile (· ≠ 47) := by
          rw [← ht]
          intro hm
          have := List.mem_takeWhile_imp hm
          simp at this
        have h0comp : 0 ∉ c :: rest.takeWhile (· ≠ 47) := by
          rw [← ht]
          exact fun hm => h0 ((List.takeWhile_sublist _).subset hm)
        have hne2' : c :: rest.takeWhile (· ≠ 47) ≠ [46, 46] := by
          rw [← ht]
          exact hdd2
        have hsplit := List.takeWhile_append_dropWhile
          (p := fun x => decide (x ≠ 47)) (l := c :: rest)
        rcases hdd : (c :: rest).dropWhile (· ≠ 47) with _ | ⟨d, rest2⟩
        · have hrem : c :: rest = c :: rest.takeWhile (· ≠ 47) := by
            conv_lhs => rw [← hsplit]
            rw [ht, hdd, List.append_nil]
          have hcopy := cfLoop_copy_begin c (rest.takeWhile (· ≠ 47)) [] []
            h47comp h0comp hne2' (Or.inl rfl)
          rw [List.append_nil] at hcopy
          rw [hrem, hcopy, cf_nil, sb_end _ h47comp hne2']
          simp
        · have hne' : (c :: rest).dropWhile (· ≠ 47) ≠ [] := by
            rw [hdd]
            simp
          have hd47 : d = 47 := by
            have hh := List.head_dropWhile_not (fun x => decide (x ≠ 47)) (c :: rest) hne'
            have hdeq : ((c :: rest).dropWhile (· ≠ 47)).head hne' = d := by
              have h1 : ((c :: rest).dropWhile (· ≠ 47)).head? = some d := by
                rw [hdd]; rfl
              rw [List.head?_eq_head hne'] at h1
              exact Option.some.inj h1
            rw [hdeq] at hh
            simpa using hh
          subst hd47
          have hrem : c :: rest = (c :: rest.takeWhile (· ≠ 47)) ++ 47 :: rest2 := by
            conv_lhs => rw [← hsplit]
            rw [ht, hdd]
          have h0rest2 : 0 ∉ rest2.dropWhile (· = 47) := by
            intro hm
            apply h0
            rw [hrem]
            exact List.mem_append_right _
              (List.mem_cons_of_mem _ ((List.dropWhile_sublist _).subset hm))
          rw [hrem, cfLoop_copy_begin c (rest.takeWhile (· ≠ 47)) (47 :: rest2) []
              h47comp h0comp hne2' (Or.inr (by simp)),
            cf_step 47 rest2 false ((c :: rest.takeWhile (· ≠ 47)).getLastD 0)
              ([] ++ (c :: rest.takeWhile (· ≠ 47)))
              (by rintro ⟨hh, -⟩; exact absurd hh (by decide))
              (by rintro ⟨hh, -⟩; exact absurd hh (by decide)),
            if_pos rfl,
            cfLoop_specCS (rest2.dropWhile (· = 47)).length _ le_rfl h0rest2 _,
            sb_mid _ rest2 h47comp hne2']
          cases specCS (rest2.dropWhile (· = 47)) <;> simp

/-- C5 counterexample: the space byte (32) belongs to the allowlist as the
claim states it, the name `"a b"` is made only of claimed-allowlist bytes,
does not begin with `~` and has no dot component, yet `check_filename`
rejects it (returns the empty string): the real `allowed_chars` string
contains no space. -/
theorem c5_space_rejected_cex :
    [97, 32, 98].all cfAllowedClaim = true ∧ check_filename [97, 32, 98] = [] :=
  ⟨by decide, by decide⟩

/-- C5 (amended): `check_filename` rejects exactly the inputs with a byte
outside `/0-9A-Za-z-._~` (no space), the empty input, a leading `~`, length
at least 1024, or a `..` component; accepted inputs are normalized by
keeping the first component verbatim, dropping later `.` components,
collapsing slash runs, and stripping trailing slashes while keeping at least
one byte — stated as equality with the component-level specification
`check_filename_spec`. -/
theorem c5_check_filename (name : List Nat) :
    check_filename name = check_filename_spec name := by
  by_cases hg : ¬ name.all cfAllowed ∨ name = [] ∨ name.headD 0 = 126 ∨ 1024 ≤ name.length
  · simp only [check_filename, check_filename_spec, if_pos hg]
  · simp only [check_filename, check_filename_spec, if_neg hg]
    have h0 : 0 ∉ name := by
      intro hm
      rcases not_or.mp hg with ⟨hA, -⟩
      have hall' := not_not.mp hA
      have := List.all_eq_true.mp hall' 0 hm
      simp [cfAllowed] at this
    rw [cfLoop_specBegin name h0]

/-! ### C2: termination-cause priority -/

/-- C2 (counterexample): at a moment when the wall-clock timer has expired
AND a SIGTERM has been received (nothing reaped, `errno == EAGAIN`),
`check_child_timeout` returns `128 + SIGTERM = 143`, not the `124` the claim
asserts for this tie. -/
theorem c2_sigterm_beats_timeout_cex :
    check_child_timeout 11 (-1) true true true true false false = 143 ∧
      (143 : Int) ≠ 124 := by
  constructor
  · decide
  · decide

/-- C2 (amended): on a tie, SIGTERM wins: whenever the `waitpid` drain ended
normally (`errno` is `EAGAIN`/`ECHILD`), no reaped child status is to be
returned, and `got_sigterm` is set, the result is `128 + SIGTERM`, whatever
the timers say. -/
theorem c2_sigterm_priority (we : Nat) (cs : Int) (wp es ep iss ip : Bool)
    (hwe : we = 11 ∨ we = 10) (hcs : ¬(0 ≤ cs ∧ wp = true)) :
    check_child_timeout we cs wp true es ep iss ip = 128 + 15 := by
  unfold check_child_timeout
  rcases hwe with h | h <;> subst h <;> simp [hcs]

/-- Witness for `c2_sigterm_priority` at a concrete state in which both
timers have also expired. -/
theorem c2_sigterm_priority_witness :
    check_child_timeout 11 (-1) true true true true true true = 128 + 15 :=
  c2_sigterm_priority 11 (-1) true true true true true (Or.inl rfl) (by decide)

/-! ### C3: `mountable` phase rules -/

/-- C3: `mountable` implements exactly the ordered phase rules: `/proc`
(`proc`) and `/dev/pts` (`devpts`) mount only in phase 2; `/tmp` (`tmpfs`)
in any phase but 1; `/run` (`tmpfs`) never; `/sys` (`sysfs`), `/dev`
(`udev`) and any other wanted mount defer (appending `src, dst`) in phase 1
and mount in phases 0 and 2; everything else never mounts.  The `wanted`
rule is stated for sources not captured by one of the four earlier
(tie-breaking) rules, and the final clause for entries matching no rule. -/
theorem c3_mountable_rules :
    (∀ w st dl dst, mountable "proc" w st dl "/proc" dst = (decide (st = 2), dl)) ∧
    (∀ w st dl dst, mountable "devpts" w st dl "/dev/pts" dst = (decide (st = 2), dl)) ∧
    (∀ w st dl dst, mountable "tmpfs" w st dl "/tmp" dst = (decide (st ≠ 1), dl)) ∧
    (∀ w st dl dst, mountable "tmpfs" w st dl "/run" dst = (false, dl)) ∧
    (∀ w st dl dst, mountable "sysfs" w st dl "/sys" dst =
      if st = 1 then (false, dl ++ ["/sys", dst]) else (true, dl)) ∧
    (∀ w st dl dst, mountable "udev" w st dl "/dev" dst =
      if st = 1 then (false, dl ++ ["/dev", dst]) else (true, dl)) ∧
    (∀ ty st dl src dst, ¬(src = "/proc" ∧ ty = "proc") →
      ¬(src = "/dev/pts" ∧ ty = "devpts") → ¬(src = "/tmp" ∧ ty = "tmpfs") →
      ¬(src = "/run" ∧ ty = "tmpfs") →
      mountable ty true st dl src dst =
        if st = 1 then (false, dl ++ [src, dst]) else (true, dl)) ∧
    (∀ ty st dl src dst, ¬(src = "/proc" ∧ ty = "proc") →
      ¬(src = "/dev/pts" ∧ ty = "devpts") → ¬(src = "/tmp" ∧ ty = "tmpfs") →
      ¬(src = "/run" ∧ ty = "tmpfs") → ¬(src = "/sys" ∧ ty = "sysfs") →
      ¬(src = "/dev" ∧ ty = "udev") →
      mountable ty false st dl src dst = (false, dl)) := by
  refine ⟨?_, ?_, ?_, ?_, ?_, ?_, ?_, ?_⟩
  · intro w st dl dst
    simp [mountable]
  · intro w st dl dst
    simp [mountable]
  · intro w st dl dst
    simp [mountable]
  · intro w st dl dst
    simp [mountable]
  · intro w st dl dst
    simp [mountable]
  · intro w st dl dst
    simp [mountable]
  · intro ty st dl src dst h1 h2 h3 h4
    simp [mountable, h1, h2, h3, h4]
  · intro ty st dl src dst h1 h2 h3 h4 h5 h6
    simp [mountable, h1, h2, h3, h4, h5, h6]

/-- Witness for `c3_mountable_rules`: a user-declared (`wanted`) `ext4`
mount of `/srv` defers in phase 1, and a non-wanted unmatched entry never
mounts. -/
theorem c3_mountable_rules_witness :
    mountable "ext4" true 1 [] "/srv" "/j/srv" = (false, ["/srv", "/j/srv"]) ∧
    mountable "ext4" false 0 [] "/srv" "/j/srv" = (false, []) := by
  constructor
  · rw [c3_mountable_rules.2.2.2.2.2.2.1 "ext4" 1 [] "/srv" "/j/srv"
      (by decide) (by decide) (by decide) (by decide)]
    decide
  · rw [c3_mountable_rules.2.2.2.2.2.2.2 "ext4" 0 [] "/srv" "/j/srv"
      (by decide) (by decide) (by decide) (by decide) (by decide) (by decide)]

/-! ### C4: the `rw` mount option -/

set_option maxRecDepth 8192 in
/-- C4 (counterexample): parsing the options string `"ro,rw"` through the
`mountslot` constructor leaves `MS_RDONLY` (bit 0) SET: the constructor ORs
the table value of each recognized word, and `rw`'s value is 0, so `rw` does
not clear anything there, contradicting the claim that parsing a string with
`ro` followed by `rw` through the constructor yields a clear read-only
flag. -/
theorem c4_constructor_rw_noop_cex :
    (mountslotOpts "ro,rw".toList).1 = 1 ∧ (1 : Nat) % 2 = 1 := by
  constructor
  · simp [mountslotOpts, msOptsLoop, msToken, find_mountarg, mountargs]
  · decide

set_option maxRecDepth 8192 in
/-- C4 (amended): `rw` clears the read-only flag (rather than setting a bit)
in `add_mountopt`, where the zero-valued entry takes the clearing branch:
adding `rw` always yields `opts & ~MS_RDONLY`, and in particular adding `ro`
and then `rw` leaves the read-only bit clear.  In the constructor, by
contrast, `rw` contributes no bits at all, so `"ro,rw"` parses to exactly
`MS_RDONLY`. -/
theorem c4_rw_clears_in_add_mountopt :
    (∀ opts data, add_mountopt "rw".toList opts data = (clearRdonly opts, data)) ∧
    (∀ opts data,
      (add_mountopt "rw".toList (add_mountopt "ro".toList opts data).1
        (add_mountopt "ro".toList opts data).2).1 % 2 = 0) ∧
    mountslotOpts "ro,rw".toList = (1, []) := by
  have hrw : ∀ opts data, add_mountopt "rw".toList opts data = (clearRdonly opts, data) := by
    intro opts data
    simp [add_mountopt, find_mountarg, mountargs]
  refine ⟨hrw, ?_, ?_⟩
  · intro opts data
    rw [hrw]
    simp [clearRdonly, Nat.mul_mod_right]
  · simp [mountslotOpts, msOptsLoop, msToken, find_mountarg, mountargs]

/-! ### C1: policy evaluation order -/

/-- Each rule acts on the running `(allowed_globally, allowed_locally)` pair
exactly by overriding each component with its own contribution, when it has
one. -/
theorem allows_type_step_eq (type d : List Char) (sd : Bool) (st : Int × Int)
    (r : List Char × List Char) :
    allows_type_step type d sd st r =
      ((ruleGlobal type r).getD st.1, (ruleLocal type d sd r).getD st.2) := by
  unfold allows_type_step ruleGlobal ruleLocal
  cases h : atAllowed type r.1 with
  | none => simp
  | some a =>
    by_cases h2 : r.2 = []
    · by_cases h3 : a = 0 <;> simp [h2, h3]
    · by_cases h4 : r.2.head? = some '/'
      · by_cases h5 : check_dirmatch (path_endslashC r.2) d (sd || decide (a ≤ 0)) <;>
          simp [h2, h4, h5]
      · simp [h2, h4]

/-- A fold that overrides each component by the rule's contribution computes,
in each component, the contribution of the last contributing rule. -/
theorem foldl_getD_pair (g l : List Char × List Char → Option Int)
    (conf : List (List Char × List Char)) (st : Int × Int) :
    conf.foldl (fun st r => ((g r).getD st.1, (l r).getD st.2)) st =
      ((conf.reverse.findSome? g).getD st.1, (conf.reverse.findSome? l).getD st.2) := by
  induction conf generalizing st with
  | nil => simp
  | cons r rest ih =>
    rw [List.foldl_cons, ih]
    rw [List.reverse_cons, List.findSome?_append, List.findSome?_append]
    cases hg : List.findSome? g rest.reverse <;> cases hl : List.findSome? l rest.reverse <;>
      cases h1 : g r <;> cases h2 : l r <;> simp [List.findSome?, h1, h2]

/-- C1 (amended): `allows_type` is last-match-wins within each scope: the
global bit is the verdict of the textually last pattern-less rule (default
allow), and the local bit is the contribution of the textually last rule
contributing to it — a pattern rule whose pattern matches the directory
contributes its verdict, and a pattern-less disable also resets the local bit
— the directory being allowed iff the global bit is not deny and the local
bit is allow. -/
theorem c1_last_match_wins (conf : List (List Char × List Char)) (type dir : List Char)
    (sd : Bool) :
    allows_type conf type dir sd = lastMatchEval conf type dir sd := by
  simp only [allows_type, lastMatchEval]
  have hfun : allows_type_step type (path_endslashC dir) sd =
      fun st r => ((ruleGlobal type r).getD st.1,
        (ruleLocal type (path_endslashC dir) sd r).getD st.2) := by
    funext st r
    exact allows_type_step_eq _ _ _ _ _
  rw [hfun, foldl_getD_pair]

/-- C1 (counterexample): with the two rules `enablejail /a/b` and
`disablejail /a/*`, both of whose patterns match the directory `/a/b`, the
result flips when the two rules are exchanged: the textually last matching
rule decides.  Under the claim — the most specific matching pattern decides
the local bit — the answer would be the same for both orders, and would be
`true` (the exact pattern `/a/b/` is strictly more specific than `/a/*/` and
says allow); the code answers `false` for the first order. -/
theorem c1_order_dependence_cex :
    allows_type
      [("enablejail".toList, "/a/b".toList), ("disablejail".toList, "/a/*".toList)]
      "jail".toList "/a/b".toList false = false ∧
    allows_type
      [("enablejail".toList, "/a/b".toList), ("disablejail".toList, "/a/*".toList)].reverse
      "jail".toList "/a/b".toList false = true ∧
    check_dirmatch (path_endslashC "/a/b".toList) (path_endslashC "/a/b".toList) false = true ∧
    check_dirmatch (path_endslashC "/a/*".toList) (path_endslashC "/a/b".toList) true = true := by
  refine ⟨?_, ?_, ?_, ?_⟩
  · simp [allows_type, allows_type_step, atAllowed, check_action, check_dirmatch, globM,
      takeThruSlashes, path_endslashC]
  · simp [allows_type, allows_type_step, atAllowed, check_action, check_dirmatch, globM,
      takeThruSlashes, path_endslashC]
  · simp [check_dirmatch, globM, path_endslashC]
  · simp [check_dirmatch, globM, takeThruSlashes, path_endslashC]

/-! ### C6: shell-quote round trip -/

theorem sqEscape_append (a b : List Nat) :
    sqEscape (a ++ b) = sqEscape a ++ sqEscape b := by
  induction a with
  | nil => simp [sqEscape]
  | cons c t ih =>
    by_cases h : c = 39 <;> simp [sqEscape, h, ih]

theorem sqEscape_no39 (l : List Nat) (h : ∀ c ∈ l, c ≠ 39) : sqEscape l = l := by
  induction l with
  | nil => simp [sqEscape]
  | cons c t ih =>
    have hc : c ≠ 39 := h c (List.mem_cons_self _ _)
    simp only [sqEscape, if_neg hc]
    rw [ih (fun x hx => h x (List.mem_cons_of_mem _ hx))]

/-- `substr(p, p - p)` is empty. -/
theorem slice_self (s : List Nat) (p : Nat) : slice s p p = [] := by
  unfold slice
  have : (s.take p).length ≤ p := by
    simp [List.length_take]
  simp [List.drop_eq_nil_iff.mpr this]

/-- Past the end of the string, `substr(last, pos - last)` is just
`substr(last)`. -/
theorem slice_at_end (s : List Nat) (last pos : Nat) (h : s.length ≤ pos) :
    slice s last pos = s.drop last := by
  unfold slice
  rw [List.take_of_length_le h]

/-- Extending `substr(last, pos - last)` by the byte at `pos`. -/
theorem slice_snoc (s : List Nat) (last pos : Nat) (c : Nat) (rem : List Nat)
    (hd : s.drop pos = c :: rem) (hl : last ≤ pos) :
    slice s last (pos + 1) = slice s last pos ++ [c] := by
  have hpos : pos < s.length := by
    by_contra hcon
    push_neg at hcon
    rw [List.drop_eq_nil_iff.mpr hcon] at hd
    exact List.noConfusion hd
  have hget : s[pos]? = some c := by
    have h0 : (s.drop pos)[0]? = some c := by
      rw [hd]
      simp
    rw [List.getElem?_drop] at h0
    simpa using h0
  unfold slice
  rw [List.take_succ, hget]
  simp only [Option.toList_some]
  rw [List.drop_append_of_le_length]
  simp [List.length_take]
  omega

/-- Dropping one more byte commutes with the cons decomposition of the
remaining suffix. -/
theorem drop_succ_of_drop_cons (s : List Nat) (pos : Nat) (c : Nat) (rem : List Nat)
    (hd : s.drop pos = c :: rem) : s.drop (pos + 1) = rem := by
  have : (s.drop pos).drop 1 = s.drop (pos + 1) := by
    rw [List.drop_drop]
  rw [← this, hd]
  rfl

/-- The quoting loop after quoting has begun (`quoted` nonempty): the final
`quoted` is nonempty, and `quoted' + argument.substr(last')` equals the
current `quoted`, the pending unescaped segment, and the escaped rendering of
the unscanned suffix. -/
theorem sqLoopA (s : List Nat) (rem : List Nat) :
    ∀ (pos last : Nat) (quoted : List Nat),
      s.drop pos = rem → last ≤ pos →
      (∀ c ∈ slice s last pos, c ≠ 39) → quoted ≠ [] →
      (sqLoop s rem pos quoted last).1 ≠ [] ∧
        (sqLoop s rem pos quoted last).1 ++ s.drop (sqLoop s rem pos quoted last).2 =
          quoted ++ slice s last pos ++ sqEscape rem := by
  induction rem with
  | nil =>
    intro pos last quoted hd hl hno hq
    constructor
    · simpa [sqLoop] using hq
    · have hlen : s.length ≤ pos := List.drop_eq_nil_iff.mp hd
      simp only [sqLoop, sqEscape]
      rw [slice_at_end s last pos hlen]
      simp
  | cons c rem' ih =>
    intro pos last quoted hd hl hno hq
    have hd1 : s.drop (pos + 1) = rem' := drop_succ_of_drop_cons s pos c rem' hd
    by_cases hc : c = 39
    · subst hc
      have hstep : sqLoop s (39 :: rem') pos quoted last =
          sqLoop s rem' (pos + 1) (quoted ++ slice s last pos ++ [39, 92, 39, 39])
            (pos + 1) := by
        simp only [sqLoop]
        split_ifs with h1
        · simp [hq]
        · exfalso
          apply h1
          right
          decide
      rw [hstep]
      have hq' : quoted ++ slice s last pos ++ [39, 92, 39, 39] ≠ [] := by
        simp
      have hno' : ∀ x ∈ slice s (pos + 1) (pos + 1), x ≠ 39 := by
        rw [slice_self]
        intro x hx
        exact absurd hx (List.not_mem_nil x)
      obtain ⟨ha, hb⟩ := ih (pos + 1) (pos + 1) _ hd1 (Nat.le_refl _) hno' hq'
      refine ⟨ha, ?_⟩
      rw [hb, slice_self]
      simp [sqEscape]
    · have hstep : sqLoop s (c :: rem') pos quoted last =
          sqLoop s rem' (pos + 1) quoted last := by
        simp only [sqLoop]
        split_ifs with h1 <;> rfl
      rw [hstep]
      have hsl : slice s last (pos + 1) = slice s last pos ++ [c] :=
        slice_snoc s last pos c rem' hd hl
      have hno' : ∀ x ∈ slice s last (pos + 1), x ≠ 39 := by
        rw [hsl]
        intro x hx
        rcases List.mem_append.mp hx with h | h
        · exact hno x h
        · simp at h
          subst h
          exact hc
      obtain ⟨ha, hb⟩ := ih (pos + 1) last quoted hd1 (by omega) hno' hq
      refine ⟨ha, ?_⟩
      rw [hb, hsl]
      simp [sqEscape, hc]

/-- The quoting loop before quoting has begun (`quoted` empty, `last = 0`):
if no later position triggers quoting the state is returned unchanged;
otherwise the loop produces the single-quoted rendering of the whole
argument. -/
theorem sqLoopB (s : List Nat) (rem : List Nat) :
    ∀ (pos : Nat),
      s.drop pos = rem →
      (∀ c ∈ s.take pos, c ≠ 39) →
      (((if pos = 0 then sqNeeds rem else rem.any (fun c => ¬ sqSafe c)) = false →
          sqLoop s rem pos [] 0 = ([], 0)) ∧
        ((if pos = 0 then sqNeeds rem else rem.any (fun c => ¬ sqSafe c)) = true →
          (sqLoop s rem pos [] 0).1 ≠ [] ∧
            (sqLoop s rem pos [] 0).1 ++ s.drop (sqLoop s rem pos [] 0).2 =
              39 :: (s.take pos ++ sqEscape rem))) := by
  induction rem with
  | nil =>
    intro pos _ _
    constructor
    · intro _
      rfl
    · intro h
      exfalso
      revert h
      split_ifs <;> simp [sqNeeds]
  | cons c rem' ih =>
    intro pos hd hno
    have hd1 : s.drop (pos + 1) = rem' := drop_succ_of_drop_cons s pos c rem' hd
    have hslice0 : ∀ p, slice s 0 p = s.take p := by
      intro p
      simp [slice]
    have htk1 : s.take (pos + 1) = s.take pos ++ [c] := by
      have := slice_snoc s 0 pos c rem' hd (Nat.zero_le _)
      rwa [hslice0, hslice0] at this
    by_cases htr : (pos = 0 ∧ c = 126) ∨ sqSafe c = false
    · -- this position triggers quoting
      have htrigval : (if pos = 0 then sqNeeds (c :: rem')
          else (c :: rem').any (fun x => ¬ sqSafe x)) = true := by
        rcases htr with ⟨hp, hc126⟩ | hcs
        · subst hp
          simp [sqNeeds, hc126]
        · split_ifs with hp
          · simp [sqNeeds, hcs]
          · simp [hcs, List.any_cons]
      refine ⟨fun h => (by rw [htrigval] at h; cases h), fun _ => ?_⟩
      by_cases hc : c = 39
      · subst hc
        have hstep : sqLoop s (39 :: rem') pos [] 0 =
            sqLoop s rem' (pos + 1) ([39] ++ slice s 0 pos ++ [39, 92, 39, 39])
              (pos + 1) := by
          simp only [sqLoop]
          split_ifs with h1
          · simp
          · exfalso
            apply h1
            right
            decide
        rw [hstep]
        obtain ⟨ha, hb⟩ := sqLoopA s rem' (pos + 1) (pos + 1)
          ([39] ++ slice s 0 pos ++ [39, 92, 39, 39]) hd1 (Nat.le_refl _)
          (by rw [slice_self]; intro x hx; exact absurd hx (List.not_mem_nil x))
          (by simp)
        refine ⟨ha, ?_⟩
        rw [hb, slice_self, hslice0]
        simp [sqEscape]
      · have hstep : sqLoop s (c :: rem') pos [] 0 =
            sqLoop s rem' (pos + 1) [39] 0 := by
          simp only [sqLoop]
          split_ifs with h1
          · rfl
          · exfalso
            apply h1
            rcases htr with hp | hcs
            · exact Or.inl hp
            · right
              simp [hcs]
        rw [hstep]
        obtain ⟨ha, hb⟩ := sqLoopA s rem' (pos + 1) 0 [39] hd1 (Nat.zero_le _)
          (by
            rw [hslice0, htk1]
            intro x hx
            rcases List.mem_append.mp hx with h | h
            · exact hno x h
            · simp at h
              subst h
              exact hc)
          (by simp)
        refine ⟨ha, ?_⟩
        rw [hb, hslice0, htk1]
        simp [sqEscape, hc]
    · -- no trigger here: the loop moves on unchanged
      have hsafe : sqSafe c = true := by
        by_contra hh
        simp only [Bool.not_eq_true] at hh
        exact htr (Or.inr hh)
      have hc : c ≠ 39 := by
        intro h
        subst h
        simp [sqSafe, isalnumB] at hsafe
      have hstep : sqLoop s (c :: rem') pos [] 0 = sqLoop s rem' (pos + 1) [] 0 := by
        simp only [sqLoop]
        split_ifs with h1
        · exfalso
          apply htr
          rcases h1 with hp | hcs
          · exact Or.inl hp
          · simp [hsafe] at hcs
        · rfl
      have hno1 : ∀ x ∈ s.take (pos + 1), x ≠ 39 := by
        rw [htk1]
        intro x hx
        rcases List.mem_append.mp hx with h | h
        · exact hno x h
        · simp at h
          subst h
          exact hc
      have hEq : (if pos = 0 then sqNeeds (c :: rem')
          else (c :: rem').any (fun x => ¬ sqSafe x)) =
          rem'.any (fun x => ¬ sqSafe x) := by
        split_ifs with hp
        · subst hp
          have hc126 : c ≠ 126 := by
            intro h
            exact htr (Or.inl ⟨rfl, h⟩)
          simp [sqNeeds, hc126, hsafe]
        · simp [hsafe, List.any_cons]
      obtain ⟨ihf, iht⟩ := ih (pos + 1) hd1 hno1
      rw [if_neg (Nat.succ_ne_zero pos)] at ihf iht
      constructor
      · intro h
        rw [hEq] at h
        rw [hstep]
        exact ihf h
      · intro h
        rw [hEq] at h
        obtain ⟨ha, hb⟩ := iht h
        rw [hstep]
        refine ⟨ha, ?_⟩
        rw [hb, htk1]
        simp [sqEscape, hc]

/-- Closed form of `shell_quote`: the argument itself when no position
triggers quoting, else the single-quoted escaped rendering. -/
theorem shell_quote_closed (s : List Nat) :
    shell_quote s = if sqNeeds s then 39 :: sqEscape s ++ [39] else s := by
  obtain ⟨hf, ht⟩ := sqLoopB s s 0 (by simp) (by simp)
  rw [if_pos rfl] at hf ht
  by_cases hn : sqNeeds s = true
  · rw [if_pos hn]
    obtain ⟨ha, hb⟩ := ht hn
    simp only [List.take_zero, List.nil_append] at hb
    simp only [shell_quote]
    rw [if_neg ha]
    rw [hb]
  · have hn' : sqNeeds s = false := by
      simpa using hn
    rw [if_neg hn]
    simp only [shell_quote]
    rw [hf hn']
    simp

/-- The parser's literal set is exactly the set `shell_quote` leaves
unquoted. -/
theorem shLiteral_eq_sqSafe (c : Nat) : shLiteral c = sqSafe c := by
  have h : (shLiteral c = true) ↔ (sqSafe c = true) := by
    simp only [shLiteral, sqSafe, Bool.or_eq_true, decide_eq_true_eq]
    tauto
  rcases Bool.eq_false_or_eq_true (sqSafe c) with h2 | h2 <;>
    rcases Bool.eq_false_or_eq_true (shLiteral c) with h3 | h3 <;>
      simp [h2, h3] at h ⊢

/-- Parser step: end of input inside a word emits the word. -/
theorem shp_norm_nil (acc : List Nat) : shParseAux .norm [] acc true = some [acc] := by
  rw [shParseAux.eq_def]
  rfl

/-- Parser step: a literal byte is appended to the current word. -/
theorem shp_norm_lit (c : Nat) (t' acc : List Nat) (inw : Bool)
    (hblank : ¬(c = 32 ∨ c = 9 ∨ c = 10)) (hq : c ≠ 39) (hbs : c ≠ 92)
    (hlit : shLiteral c = true) (hor : inw = true ∨ c ≠ 126) :
    shParseAux .norm (c :: t') acc inw = shParseAux .norm t' (acc ++ [c]) true := by
  rw [shParseAux.eq_def]
  simp only []
  rw [if_neg hblank, if_neg hq, if_neg hbs, if_pos ⟨hlit, hor⟩]

/-- Parser step: an unquoted single quote enters single-quote mode. -/
theorem shp_norm_quote (rest acc : List Nat) (inw : Bool) :
    shParseAux .norm (39 :: rest) acc inw = shParseAux .squote rest acc true := by
  rw [shParseAux.eq_def]
  simp only []
  rw [if_neg (by decide)]
  simp

/-- Parser step: a backslash-escaped single quote is literal. -/
theorem shp_norm_bsq (rest acc : List Nat) (inw : Bool) :
    shParseAux .norm (92 :: 39 :: rest) acc inw = shParseAux .norm rest (acc ++ [39]) true := by
  rw [shParseAux.eq_def]
  simp only []
  rw [if_neg (by decide)]
  simp

/-- Parser step: a single quote inside single quotes closes them. -/
theorem shp_squote_quote (rest acc : List Nat) :
    shParseAux .squote (39 :: rest) acc true = shParseAux .norm rest acc true := by
  rw [shParseAux.eq_def]
  simp

/-- Parser step: any other byte inside single quotes is literal. -/
theorem shp_squote_other (c : Nat) (rest acc : List Nat) (hc : ¬ c = 39) :
    shParseAux .squote (c :: rest) acc true = shParseAux .squote rest (acc ++ [c]) true := by
  rw [shParseAux.eq_def]
  simp only []
  rw [if_neg hc]

/-- Parsing an all-safe suffix inside a word accumulates it verbatim. -/
theorem shParse_safe_word (t : List Nat) :
    ∀ acc, (∀ c ∈ t, sqSafe c = true) →
      shParseAux .norm t acc true = some [acc ++ t] := by
  induction t with
  | nil =>
    intro acc _
    rw [shp_norm_nil]
    simp
  | cons c t' ih =>
    intro acc hsafe
    have hc : sqSafe c = true := hsafe c (List.mem_cons_self _ _)
    have hblank : ¬(c = 32 ∨ c = 9 ∨ c = 10) := by
      intro h
      rcases h with h | h | h <;> subst h <;> simp [sqSafe, isalnumB] at hc
    have hq : c ≠ 39 := by
      intro h
      subst h
      simp [sqSafe, isalnumB] at hc
    have hbs : c ≠ 92 := by
      intro h
      subst h
      simp [sqSafe, isalnumB] at hc
    rw [shp_norm_lit c t' acc true hblank hq hbs
      (by rw [shLiteral_eq_sqSafe]; exact hc) (Or.inl rfl)]
    rw [ih (acc ++ [c]) (fun x hx => hsafe x (List.mem_cons_of_mem _ hx))]
    simp

/-- Parsing the escaped rendering of `t` followed by the closing quote, from
inside single quotes, recovers `t`. -/
theorem shParse_squote_escape (t : List Nat) :
    ∀ acc, shParseAux .squote (sqEscape t ++ [39]) acc true = some [acc ++ t] := by
  induction t with
  | nil =>
    intro acc
    simp only [sqEscape, List.nil_append, List.append_nil]
    rw [shp_squote_quote, shp_norm_nil]
  | cons c t' ih =>
    intro acc
    by_cases hc : c = 39
    · subst hc
      have hesc : sqEscape (39 :: t') = 39 :: 92 :: 39 :: 39 :: sqEscape t' := by
        simp [sqEscape]
      rw [hesc]
      simp only [List.cons_append]
      rw [shp_squote_quote, shp_norm_bsq, shp_norm_quote, ih (acc ++ [39])]
      simp
    · have hesc : sqEscape (c :: t') = c :: sqEscape t' := by
        simp [sqEscape, hc]
      rw [hesc]
      simp only [List.cons_append]
      rw [shp_squote_other c _ acc hc, ih (acc ++ [c])]
      simp

/-- C6 (amended): for every nonempty byte string `s`, the modelled POSIX
shell word parser parses `shell_quote(s)` back to exactly the single word
`s`. -/
theorem c6_round_trip (s : List Nat) (h : s ≠ []) :
    shParse (shell_quote s) = some [s] := by
  rw [shell_quote_closed]
  by_cases hn : sqNeeds s = true
  · rw [if_pos hn]
    unfold shParse
    rw [List.cons_append, shp_norm_quote, shParse_squote_escape s []]
    simp
  · rw [if_neg hn]
    have hn' : sqNeeds s = false := by simpa using hn
    rcases s with _ | ⟨c, t⟩
    · exact absurd rfl h
    · have hparts : ¬(c = 126) ∧ (∀ x ∈ c :: t, sqSafe x = true) := by
        simp only [sqNeeds, Bool.or_eq_false_iff, List.any_eq_false] at hn'
        obtain ⟨h1, h2⟩ := hn'
        constructor
        · simpa using h1
        · intro x hx
          have := h2 x hx
          simpa using this
      obtain ⟨h126, hsafe⟩ := hparts
      have hc : sqSafe c = true := hsafe c (List.mem_cons_self _ _)
      have hblank : ¬(c = 32 ∨ c = 9 ∨ c = 10) := by
        intro hcc
        rcases hcc with hcc | hcc | hcc <;> subst hcc <;> simp [sqSafe, isalnumB] at hc
      have hq : c ≠ 39 := by
        intro hcc
        subst hcc
        simp [sqSafe, isalnumB] at hc
      have hbs : c ≠ 92 := by
        intro hcc
        subst hcc
        simp [sqSafe, isalnumB] at hc
      unfold shParse
      rw [shp_norm_lit c t [] false hblank hq hbs
        (by rw [shLiteral_eq_sqSafe]; exact hc) (Or.inr h126)]
      simp only [List.nil_append]
      rw [shParse_safe_word t [c] (fun x hx => hsafe x (List.mem_cons_of_mem _ hx))]
      simp

/-- Witness for `c6_round_trip` at the word `a '"b` (bytes 97 32 39 34 98),
which needs quoting and contains a quote. -/
theorem c6_round_trip_witness :
    shParse (shell_quote [97, 32, 39, 34, 98]) = some [[97, 32, 39, 34, 98]] :=
  c6_round_trip [97, 32, 39, 34, 98] (by decide)

/-- C6 (counterexample): the empty string.  `shell_quote("")` is `""` (the
quoting loop never runs), and a POSIX shell parses the empty input as zero
words, not as the single word `""` — so `shell_quote` does return an output
the shell parses as zero words, contradicting the claim. -/
theorem c6_empty_cex :
    shell_quote [] = [] ∧ shParse (shell_quote []) = some [] ∧
      shParse (shell_quote []) ≠ some [[]] := by
  refine ⟨rfl, rfl, ?_⟩
  decide

/-! ### C7: policy-file size acceptance -/

/-- C7 (counterexample): a policy file of exactly 8192 bytes (the claim's
"at most 8192" bound) is refused: `read` fills the whole 8 KiB buffer, and
`nr == sizeof(buf_)` dies with "Too big". -/
theorem c7_8192_rejected_cex :
    pajailconf_read (List.replicate 8192 97) = ConfRead.errTooBig := by
  have hlen : (List.replicate 8192 97).length = 8192 := List.length_replicate _ _
  simp only [pajailconf_read, hlen, Nat.min_self]
  simp

/-- C7 (amended): a policy file is accepted by the size logic exactly when
its size is between 1 and 8191 bytes, and is then read in full; the empty
file and every file of 8192 bytes or more are refused. -/
theorem c7_size_acceptance (file : List Nat) :
    (1 ≤ file.length → file.length ≤ 8191 → pajailconf_read file = ConfRead.ok file) ∧
    (file.length = 0 → pajailconf_read file = ConfRead.errEmpty) ∧
    (8192 ≤ file.length → pajailconf_read file = ConfRead.errTooBig) := by
  refine ⟨?_, ?_, ?_⟩
  · intro h1 h2
    have hmin : min file.length 8192 = file.length := by omega
    simp only [pajailconf_read, hmin]
    rw [if_neg (by omega), if_neg (by omega), List.take_length]
  · intro h
    simp [pajailconf_read, h]
  · intro h
    have hmin : min file.length 8192 = 8192 := by omega
    simp [pajailconf_read, hmin]

/-- Witness for `c7_size_acceptance`: the one-byte file is read in full. -/
theorem c7_size_acceptance_witness :
    pajailconf_read [97] = ConfRead.ok [97] :=
  (c7_size_acceptance [97]).1 (by decide) (by decide)

/-! ### C10: the `-c` command string -/

/-- The `for (int i = 0; i < argc; ++i) command += " " + shell_quote(...)`
loop, as a fold, appends one space-prefixed quoted word per argument. -/
theorem exec_command_foldl (l : List (List Nat)) (init : List Nat) :
    l.foldl (fun acc x => acc ++ 32 :: shell_quote x) init =
      init ++ l.flatMap (fun w => 32 :: shell_quote w) := by
  induction l generalizing init with
  | nil => simp
  | cons w ws ih =>
    simp only [List.foldl_cons, List.flatMap_cons, ih]
    simp

/-- C10: with two or more COMMAND words the `-c` string contains the first
word twice — `shell_quote` of the first word followed by the space-separated
`shell_quote` of every word starting again from the first; with exactly one
word it is that word verbatim. -/
theorem c10_command_string :
    (∀ w, exec_command [w] = some w) ∧
    (∀ w0 w1 ws, exec_command (w0 :: w1 :: ws) =
      some (shell_quote w0 ++ 32 :: shell_quote w0 ++
        (w1 :: ws).flatMap (fun w => 32 :: shell_quote w))) := by
  constructor
  · intro w
    rfl
  · intro w0 w1 ws
    simp only [exec_command, exec_command_foldl, List.flatMap_cons]
    simp

end PaJail
